import Mathlib

/-!
Verification of the hashstructure library (Go) against its specification.

The development embeds the core of the library shallowly:

* `GoValue` models the Go values the walker can encounter (scalars, strings,
  arrays, slices, maps with their runtime enumeration order, structs with
  field metadata, pointers, nil interfaces, and an unsupported kind).
* A hash.Hash64 accumulator is an io.Writer whose Sum64 is a pure function of
  the bytes written since Reset; accordingly the walker is modelled as a
  function from a value to the byte stream it writes, and `Hash` applies the
  chosen digest function to that stream.
* `crc64` is the Go crc64 package with the ECMA table (reflected polynomial,
  initial value and final xor of all-ones), the default Hasher.
* `fnv64` is the Go fnv package New64 function (FNV-1, 64 bit), the fallback
  digest used by `sortValues` for colliding map keys.
* `visit`, `sortValues` and the map machinery follow the sortValues variant
  of the source (src/unnamed/part_001); `visitTag` follows the tagged
  variant (second file of src/unnamed/part_000) whose struct case honours
  the ignore directive and whose map case xor-folds entry hashes.
-/

/-- Byte streams: lists of byte values written to the accumulator. -/
abbrev Bytes := List Nat

/-- 2 to the 64, the modulus of the uint64 arithmetic in the source. -/
def M64 : Nat := 18446744073709551616

/-- Little-endian encoding of a natural number on `w` bytes, as produced by
binary.Write with binary.LittleEndian for unsigned values. -/
def natLE : Nat → Nat → Bytes
  | 0, _ => []
  | w + 1, n => n % 256 :: natLE w (n / 256)

/-- Little-endian two-complement encoding of an integer on `w` bytes, as
produced by binary.Write with binary.LittleEndian for signed values. -/
def intLE (w : Nat) (n : Int) : Bytes :=
  natLE w ((n % (Int.ofNat (2 ^ (8 * w)))).toNat)

/-- Decoding of a little-endian byte stream back to a natural number;
used to state that the scalar encodings are fixed-width little-endian. -/
def decLE : Bytes → Nat
  | [] => 0
  | b :: rest => b % 256 + 256 * decLE rest

/-- The reflected form of the CRC-64 ECMA polynomial (crc64.ECMA in Go). -/
def ECMA : Nat := 0xC96C5795D7870F42

/-- One bit step of the table construction in crc64.MakeTable. -/
def crcStep (c : Nat) : Nat :=
  if c % 2 = 1 then Nat.xor (c / 2) ECMA else c / 2

/-- One table entry of crc64.MakeTable(crc64.ECMA): eight bit steps. -/
def crcTab (b : Nat) : Nat :=
  crcStep (crcStep (crcStep (crcStep (crcStep (crcStep (crcStep (crcStep b)))))))

/-- One byte step of the crc64 update loop. -/
def crcUpdate (crc b : Nat) : Nat :=
  Nat.xor (crcTab (Nat.xor (crc % 256) (b % 256))) (crc / 256)

/-- crc64.New(crc64.MakeTable(crc64.ECMA)) digest of a byte stream: initial
value all-ones, byte steps, final xor with all-ones. This is the default
Hasher of HashOptions. -/
def crc64 (s : Bytes) : Nat :=
  Nat.xor (s.foldl crcUpdate (M64 - 1)) (M64 - 1)

/-- The FNV-1 64 bit prime (hash/fnv). -/
def fnvPrime : Nat := 1099511628211

/-- The FNV-1 64 bit offset basis (hash/fnv). -/
def fnvOffset : Nat := 14695981039346656037

/-- One byte step of fnv.New64 (FNV-1): multiply then xor. -/
def fnvUpdate (h b : Nat) : Nat :=
  Nat.xor (h * fnvPrime % M64) (b % 256)

/-- fnv.New64() digest of a byte stream, the fallback hash for colliding
map keys in sortValues. -/
def fnv64 (s : Bytes) : Nat :=
  s.foldl fnvUpdate fnvOffset

/-- The errors the walker can return. unsupportedKind carries the kind name
from the unknown-kind-to-hash error; unresolvableCollision carries the index
of the colliding key named by the unresolvable-hash-collision error;
notStringer carries the field name of ErrNotStringer (include.go). -/
inductive GoErr where
  | unsupportedKind (kind : String)
  | unresolvableCollision (idx : Nat)
  | notStringer (field : String)
deriving DecidableEq, Repr

/-- Metadata of a struct field: its name, the value of its hash struct tag,
and whether the reflect.Value of the field is settable (CanSet). -/
structure FieldMeta where
  name : String
  tag : String
  canSet : Bool
deriving DecidableEq, Repr

/-- Go values as seen by the walker through the reflect package. A map
carries its entries in the enumeration order the runtime happens to present;
a struct carries its nominal type name and its fields in declaration order.
VNilIface is an invalid reflect.Value (a nil seen through an interface or a
nil pointer after Indirect). VFunc stands for a kind not handled by the
walker (such as a func value). -/
inductive GoValue where
  | VNilIface
  | VBool (b : Bool)
  | VInt (n : Int)
  | VInt8 (n : Int)
  | VInt16 (n : Int)
  | VInt32 (n : Int)
  | VInt64 (n : Int)
  | VUint (n : Nat)
  | VUint8 (n : Nat)
  | VUint16 (n : Nat)
  | VUint32 (n : Nat)
  | VUint64 (n : Nat)
  | VString (s : Bytes)
  | VArray (xs : List GoValue)
  | VSlice (xs : List GoValue)
  | VMap (entries : List (GoValue × GoValue))
  | VStruct (typeName : String) (fields : List (FieldMeta × GoValue))
  | VPtr (p : GoValue)
  | VFunc

/-- Lookup in the Go map from digests to key indices used by sortValues. -/
def mLookup : List (Nat × Int) → Nat → Option Int
  | [], _ => none
  | p :: rest, d => if p.1 = d then some p.2 else mLookup rest d

/-- Update or insert in the Go map from digests to key indices. -/
def mInsert : List (Nat × Int) → Nat → Int → List (Nat × Int)
  | [], d, i => [(d, i)]
  | p :: rest, d, i => if p.1 = d then (d, i) :: rest else p :: mInsert rest d i

/-- Ordered insertion into a sorted list of digests. -/
def insertOrd (x : Nat) : List Nat → List Nat
  | [] => [x]
  | y :: rest => if x ≤ y then x :: y :: rest else y :: insertOrd x rest

/-- Sorting of the digest list, modelling sort.Sort(uint64Slice(ks)). On the
success path the digests are pairwise distinct, so any correct sort agrees
with this one. -/
def sortNat : List Nat → List Nat
  | [] => []
  | x :: rest => insertOrd x (sortNat rest)

/-- Collects the results of hashing every key, stopping at the first error,
exactly as the first loop of sortValues stops at the first Hash error. -/
def collectOk : List (Except GoErr Bytes) → Except GoErr (List Bytes)
  | [] => .ok []
  | .error e :: _ => .error e
  | .ok s :: rest => (collectOk rest).map (s :: ·)

/-- First loop of sortValues (src/unnamed/part_001): hash every key with the
default options, record first occurrences in m, and collect the colliding
indices. The running index i of the source equals the length of the digest
list built so far. -/
def pass1 : List Bytes → List Nat → List (Nat × Int) → List Nat →
    List Nat × List (Nat × Int) × List Nat
  | [], ks, m, coll => (ks, m, coll)
  | s :: rest, ks, m, coll =>
    let d := crc64 s
    match mLookup m d with
    | some v =>
      if 0 ≤ v then
        pass1 rest (ks ++ [d]) (mInsert m d (-1)) (coll ++ [v.toNat] ++ [ks.length])
      else
        pass1 rest (ks ++ [d]) m (coll ++ [ks.length])
    | none => pass1 rest (ks ++ [d]) (mInsert m d (Int.ofNat ks.length)) coll

/-- Second loop of sortValues: rehash exactly the colliding keys with the
fallback FNV-1 64 accumulator; if a fallback digest is already present in m
the collision is unresolvable and the loop fails naming that key. -/
def fallback (ss : List Bytes) : List Nat → List Nat → List (Nat × Int) →
    Except GoErr (List Nat × List (Nat × Int))
  | [], ks, m => .ok (ks, m)
  | c :: cs, ks, m =>
    let d := fnv64 (ss.getD c [])
    match mLookup m d with
    | some _ => .error (.unresolvableCollision c)
    | none => fallback ss cs (ks.set c d) (mInsert m d (Int.ofNat c))

/-- sortValues (src/unnamed/part_001) on the byte streams of the keys: hash
all keys with the default accumulator, rehash colliding ones with FNV-1,
sort the digests ascending and return the key indices in digest order. -/
def sortValues (streams : List (Except GoErr Bytes)) : Except GoErr (List Int) :=
  match collectOk streams with
  | .error e => .error e
  | .ok ss =>
    match pass1 ss [] [] [] with
    | (ks, m, coll) =>
      match fallback ss coll ks m with
      | .error e => .error e
      | .ok (ks, m) => .ok ((sortNat ks).map (fun d => (mLookup m d).getD 0))

/-- The map case of visit after sortValues: walk the entries in the returned
index order, key then value, concatenating the written bytes and stopping at
the first error. -/
def assembleMap (ps : List (Except GoErr Bytes × Except GoErr Bytes)) :
    List Int → Except GoErr Bytes
  | [] => .ok []
  | i :: rest =>
    match (ps.getD i.toNat (.ok [], .ok [])).1,
          (ps.getD i.toNat (.ok [], .ok [])).2, assembleMap ps rest with
    | .error e, _, _ => .error e
    | .ok _, .error e, _ => .error e
    | .ok kb, .ok vb, .ok tail => .ok (kb ++ vb ++ tail)
    | .ok _, .ok _, .error e => .error e

/-- The whole map case of visit, as a function of the key and value streams
of the entries in enumeration order. -/
def mapStep (ps : List (Except GoErr Bytes × Except GoErr Bytes)) :
    Except GoErr Bytes :=
  match sortValues (ps.map Prod.fst) with
  | .error e => .error e
  | .ok idxs => assembleMap ps idxs

mutual

/-- The walker visit of src/unnamed/part_001 and src/hashstructure.go,
as the byte stream it writes into the accumulator. Pointers and interfaces
are dereferenced; an invalid value is treated as int8 zero; int and uint
widen to 8 bytes; bool becomes int8 0 or 1; sized scalars are written
little-endian at their own width; strings write their raw bytes; arrays,
slices and struct fields are walked in order; maps are walked in the
canonical order computed by sortValues. -/
def visit : GoValue → Except GoErr Bytes
  | .VNilIface => .ok (intLE 1 0)
  | .VBool b => .ok (intLE 1 (if b then 1 else 0))
  | .VInt n => .ok (intLE 8 n)
  | .VInt8 n => .ok (intLE 1 n)
  | .VInt16 n => .ok (intLE 2 n)
  | .VInt32 n => .ok (intLE 4 n)
  | .VInt64 n => .ok (intLE 8 n)
  | .VUint n => .ok (natLE 8 n)
  | .VUint8 n => .ok (natLE 1 n)
  | .VUint16 n => .ok (natLE 2 n)
  | .VUint32 n => .ok (natLE 4 n)
  | .VUint64 n => .ok (natLE 8 n)
  | .VString s => .ok s
  | .VArray xs => visitList xs
  | .VSlice xs => visitList xs
  | .VMap entries => mapStep (entryStreams entries)
  | .VStruct _ fields => visitFields fields
  | .VPtr p => visit p
  | .VFunc => .error (.unsupportedKind "func")

/-- Element loop of the array and slice cases of visit. -/
def visitList : List GoValue → Except GoErr Bytes
  | [] => .ok []
  | x :: rest =>
    match visit x, visitList rest with
    | .error e, _ => .error e
    | .ok _, .error e => .error e
    | .ok b, .ok tail => .ok (b ++ tail)

/-- The streams of the keys and values of the entries of a map, in
enumeration order; the key streams feed sortValues and both feed the ordered
walk of the entries. -/
def entryStreams : List (GoValue × GoValue) →
    List (Except GoErr Bytes × Except GoErr Bytes)
  | [] => []
  | (k, v) :: rest => (visit k, visit v) :: entryStreams rest

/-- Field loop of the struct case of visit: a field is walked when it is
settable or its name is not the blank identifier. -/
def visitFields : List (FieldMeta × GoValue) → Except GoErr Bytes
  | [] => .ok []
  | (meta, val) :: rest =>
    if meta.canSet = true ∨ meta.name ≠ "_" then
      match visit val, visitFields rest with
      | .error e, _ => .error e
      | .ok _, .error e => .error e
      | .ok b, .ok tail => .ok (b ++ tail)
    else visitFields rest

end

/-- Hash (src/unnamed/part_001): reset the chosen accumulator, walk the
value, finalize. A nil options or nil Hasher selects the default crc64
accumulator; since a Hash64 digest is a pure function of the bytes written
since Reset, an options value is modelled by that function. -/
def Hash (v : GoValue) (opts : Option (Bytes → Nat)) : Except GoErr Nat :=
  (visit v).map (opts.getD crc64)

/-- True when an Except value is a success, as a computable test. -/
def isOkB : Except GoErr Bytes → Bool
  | .ok _ => true
  | .error _ => false

/-- The key streams of the entries of a map in enumeration order; these feed
sortValues. -/
def keyStreams (entries : List (GoValue × GoValue)) : List (Except GoErr Bytes) :=
  (entryStreams entries).map Prod.fst

/-- The digest each key stream ends up sorted by when sortValues succeeds:
the fallback FNV-1 digest when the crc64 digest of the stream occurs at
least twice among the keys, the crc64 digest otherwise. -/
def finalDigests (ss : List Bytes) : List Nat :=
  ss.map (fun s => if 2 ≤ (ss.map crc64).count (crc64 s) then fnv64 s else crc64 s)

/-- Collects the hashed key and value of every map entry in enumeration
order, stopping at the first error, key before value, exactly as the map
loop of the tagged variant does. -/
def collectPairs : List (Except GoErr Bytes × Except GoErr Bytes) →
    Except GoErr (List (Bytes × Bytes))
  | [] => .ok []
  | (.error e, _) :: _ => .error e
  | (.ok _, .error e) :: _ => .error e
  | (.ok kb, .ok vb) :: rest => (collectPairs rest).map ((kb, vb) :: ·)

/-- The map case of the tagged variant (second file of src/unnamed/part_000):
xor together the default-option hashes of all keys and values and write the
resulting uint64 little-endian. -/
def xorStep (ps : List (Except GoErr Bytes × Except GoErr Bytes)) :
    Except GoErr Bytes :=
  match collectPairs ps with
  | .error e => .error e
  | .ok pairs =>
    .ok (natLE 8 (pairs.foldl (fun h p => Nat.xor (Nat.xor h (crc64 p.1)) (crc64 p.2)) 0))

mutual

/-- The walker visit of the tagged variant (second file of
src/unnamed/part_000): identical to `visit` except that the struct case
skips fields whose hash tag is ignore and the map case xor-folds the entry
hashes instead of sorting. -/
def visitTag : GoValue → Except GoErr Bytes
  | .VNilIface => .ok (intLE 1 0)
  | .VBool b => .ok (intLE 1 (if b then 1 else 0))
  | .VInt n => .ok (intLE 8 n)
  | .VInt8 n => .ok (intLE 1 n)
  | .VInt16 n => .ok (intLE 2 n)
  | .VInt32 n => .ok (intLE 4 n)
  | .VInt64 n => .ok (intLE 8 n)
  | .VUint n => .ok (natLE 8 n)
  | .VUint8 n => .ok (natLE 1 n)
  | .VUint16 n => .ok (natLE 2 n)
  | .VUint32 n => .ok (natLE 4 n)
  | .VUint64 n => .ok (natLE 8 n)
  | .VString s => .ok s
  | .VArray xs => visitTagList xs
  | .VSlice xs => visitTagList xs
  | .VMap entries => xorStep (entryStreamsTag entries)
  | .VStruct _ fields => visitTagFields fields
  | .VPtr p => visitTag p
  | .VFunc => .error (.unsupportedKind "func")

/-- Element loop of the array and slice cases of visitTag. -/
def visitTagList : List GoValue → Except GoErr Bytes
  | [] => .ok []
  | x :: rest =>
    match visitTag x, visitTagList rest with
    | .error e, _ => .error e
    | .ok _, .error e => .error e
    | .ok b, .ok tail => .ok (b ++ tail)

/-- The streams of the keys and values of the entries of a map under the
tagged variant, in enumeration order. -/
def entryStreamsTag : List (GoValue × GoValue) →
    List (Except GoErr Bytes × Except GoErr Bytes)
  | [] => []
  | (k, v) :: rest => (visitTag k, visitTag v) :: entryStreamsTag rest

/-- Field loop of the struct case of visitTag: a settable or non-blank field
is skipped when its hash tag is ignore, walked otherwise. -/
def visitTagFields : List (FieldMeta × GoValue) → Except GoErr Bytes
  | [] => .ok []
  | (meta, val) :: rest =>
    if meta.canSet = true ∨ meta.name ≠ "_" then
      if meta.tag = "ignore" then visitTagFields rest
      else
        match visitTag val, visitTagFields rest with
        | .error e, _ => .error e
        | .ok _, .error e => .error e
        | .ok b, .ok tail => .ok (b ++ tail)
    else visitTagFields rest

end

/-- Hash of the tagged variant, with the same accumulator model as `Hash`. -/
def HashTag (v : GoValue) (opts : Option (Bytes → Nat)) : Except GoErr Nat :=
  (visitTag v).map (opts.getD crc64)

/-- Modelled from the spec: the FieldPolicy resolution of the string
directive. The walker variant implementing the string directive is not in
src, which only declares its error type ErrNotStringer in include.go. A
field carries the optional textual representation returned by the
fmt.Stringer capability of its value, as a byte stream; a string-directive
field whose value lacks the capability makes the walk fail with a
NotStringerError naming the field, and one whose value has it contributes
the textual representation in place of the value. Fields with the ignore
directive are excluded and undirected fields contribute their walked value. -/
def visitPolicyFields : List (FieldMeta × GoValue × Option Bytes) →
    Except GoErr Bytes
  | [] => .ok []
  | (meta, val, strRepr) :: rest =>
    if meta.tag = "ignore" then visitPolicyFields rest
    else if meta.tag = "string" then
      match strRepr with
      | none => .error (.notStringer meta.name)
      | some r =>
        match visitPolicyFields rest with
        | .error e => .error e
        | .ok tail => .ok (r ++ tail)
    else
      match visit val, visitPolicyFields rest with
      | .error e, _ => .error e
      | .ok _, .error e => .error e
      | .ok b, .ok tail => .ok (b ++ tail)

mutual

/-- Relates two observations of one Go value across two calls: the runtime
may present the entries of any map, anywhere in the value, in a different
order each time it is enumerated, and nothing else may differ. -/
def EnumEquiv : GoValue → GoValue → Prop
  | .VNilIface, .VNilIface => True
  | .VBool b, .VBool b' => b = b'
  | .VInt n, .VInt n' => n = n'
  | .VInt8 n, .VInt8 n' => n = n'
  | .VInt16 n, .VInt16 n' => n = n'
  | .VInt32 n, .VInt32 n' => n = n'
  | .VInt64 n, .VInt64 n' => n = n'
  | .VUint n, .VUint n' => n = n'
  | .VUint8 n, .VUint8 n' => n = n'
  | .VUint16 n, .VUint16 n' => n = n'
  | .VUint32 n, .VUint32 n' => n = n'
  | .VUint64 n, .VUint64 n' => n = n'
  | .VString s, .VString s' => s = s'
  | .VArray xs, .VArray ys => EnumEquivList xs ys
  | .VSlice xs, .VSlice ys => EnumEquivList xs ys
  | .VMap e₁, .VMap e₂ => ∃ mid, EnumEquivPairs e₁ mid ∧ mid.Perm e₂
  | .VStruct n fs, .VStruct n' gs => n = n' ∧ EnumEquivFields fs gs
  | .VPtr p, .VPtr q => EnumEquiv p q
  | .VFunc, .VFunc => True
  | _, _ => False

/-- Elementwise EnumEquiv on sequences. -/
def EnumEquivList : List GoValue → List GoValue → Prop
  | [], [] => True
  | x :: xs, y :: ys => EnumEquiv x y ∧ EnumEquivList xs ys
  | _, _ => False

/-- Componentwise EnumEquiv on map entries. -/
def EnumEquivPairs : List (GoValue × GoValue) → List (GoValue × GoValue) → Prop
  | [], [] => True
  | (k, v) :: ps, (k', v') :: qs => EnumEquiv k k' ∧ EnumEquiv v v' ∧ EnumEquivPairs ps qs
  | _, _ => False

/-- Valuewise EnumEquiv on struct fields. -/
def EnumEquivFields : List (FieldMeta × GoValue) → List (FieldMeta × GoValue) → Prop
  | [], [] => True
  | (m, v) :: fs, (m', v') :: gs => m = m' ∧ EnumEquiv v v' ∧ EnumEquivFields fs gs
  | _, _ => False

end

/-- The bytes of a successful stream, empty on error; used to state what
assembleMap produces on the success path. -/
def okBytes : Except GoErr Bytes → Bytes
  | .ok b => b
  | .error _ => []

/-- The loop invariant of the first loop of sortValues relating the digest
list ks, the digest-to-index map m and the collision list coll: m maps a
digest occurring once in ks to its unique index and a digest occurring at
least twice to -1, and coll holds exactly the indices of repeated digests,
each once. -/
def P1Inv (ks : List Nat) (m : List (Nat × Int)) (coll : List Nat) : Prop :=
  (∀ d, mLookup m d = none ↔ d ∉ ks) ∧
  (∀ d v, mLookup m d = some v →
    (0 ≤ v ∧ ks.count d = 1 ∧ ks[v.toNat]? = some d) ∨ (v = -1 ∧ 2 ≤ ks.count d)) ∧
  coll.Nodup ∧
  (∀ i, i ∈ coll ↔ ∃ d, ks[i]? = some d ∧ 2 ≤ ks.count d)

/-- The digest by which a map entry is ordered on the success path, as a
function of its key stream: the fallback FNV-1 digest when the crc64 digest
of the key repeats among the key streams ss, the crc64 digest otherwise. -/
def keyRank (ss : List Bytes) (p : Except GoErr Bytes × Except GoErr Bytes) : Nat :=
  match p.1 with
  | .ok s => if 2 ≤ (ss.map crc64).count (crc64 s) then fnv64 s else crc64 s
  | .error _ => 0

deriving instance DecidableEq for Except

set_option maxRecDepth 100000

/-! Helper lemmas about the little-endian scalar encodings. -/

theorem natLE_length (w n : Nat) : (natLE w n).length = w := by
  induction w generalizing n with
  | zero => rfl
  | succ w ih => simp [natLE, ih]

theorem pow_mul_succ_256 (w : Nat) : (2 : Nat) ^ (8 * (w + 1)) = 256 * 2 ^ (8 * w) := by
  rw [Nat.mul_succ, pow_add]
  ring

theorem decLE_natLE (w n : Nat) : decLE (natLE w n) = n % 2 ^ (8 * w) := by
  induction w generalizing n with
  | zero => simp [natLE, decLE, Nat.mod_one]
  | succ w ih =>
    rw [natLE, decLE, ih, pow_mul_succ_256, Nat.mod_mul,
      Nat.mod_mod_of_dvd _ (dvd_refl 256)]

theorem intLE_length (w : Nat) (n : Int) : (intLE w n).length = w :=
  natLE_length ..

theorem decLE_intLE (w : Nat) (n : Int) :
    (decLE (intLE w n) : Int) = n % ((2 ^ (8 * w) : Nat) : Int) := by
  have hpos : (0 : Int) < ((2 ^ (8 * w) : Nat) : Int) := by
    exact_mod_cast pow_pos (by norm_num : (0 : Nat) < 2) (8 * w)
  have hnn : 0 ≤ n % ((2 ^ (8 * w) : Nat) : Int) := Int.emod_nonneg n (ne_of_gt hpos)
  have hlt : n % ((2 ^ (8 * w) : Nat) : Int) < ((2 ^ (8 * w) : Nat) : Int) :=
    Int.emod_lt_of_pos n hpos
  have htn : (n % ((2 ^ (8 * w) : Nat) : Int)).toNat < 2 ^ (8 * w) := by omega
  rw [intLE, decLE_natLE]
  simp only [Int.ofNat_eq_natCast] at htn hnn hlt ⊢
  rw [Nat.mod_eq_of_lt htn, Int.toNat_of_nonneg hnn]

/-- Claim C5 counterexample: an int32 and an int64 holding the same number 42
hash differently under default options, because only the unsized int kind is
widened to int64 while int32 is written on four bytes. -/
theorem hash_int32_int64_differ : Hash (.VInt32 42) none ≠ Hash (.VInt64 42) none := by
  decide

/-- Claim C5 (amended): the unsized int kind widens to a 64-bit signed
representation before writing and the unsized uint kind to 64-bit unsigned,
so an int and an int64 holding the same number hash identically under any
options; the sized integer kinds are written at their declared widths of 1,
2, 4 or 8 bytes; a boolean becomes one byte holding 0 or 1; and every such
scalar is written as a fixed-width little-endian byte sequence. -/
theorem scalar_widening_spec :
    (∀ n : Int, visit (.VInt n) = .ok (intLE 8 n) ∧ visit (.VInt64 n) = .ok (intLE 8 n) ∧
      visit (.VInt32 n) = .ok (intLE 4 n) ∧ visit (.VInt16 n) = .ok (intLE 2 n) ∧
      visit (.VInt8 n) = .ok (intLE 1 n)) ∧
    (∀ n : Nat, visit (.VUint n) = .ok (natLE 8 n) ∧ visit (.VUint64 n) = .ok (natLE 8 n) ∧
      visit (.VUint32 n) = .ok (natLE 4 n) ∧ visit (.VUint16 n) = .ok (natLE 2 n) ∧
      visit (.VUint8 n) = .ok (natLE 1 n)) ∧
    (∀ b, visit (.VBool b) = .ok [if b then 1 else 0]) ∧
    (∀ opts n, Hash (.VInt n) opts = Hash (.VInt64 n) opts) ∧
    (∀ w n, (natLE w n).length = w ∧ decLE (natLE w n) = n % 2 ^ (8 * w)) ∧
    (∀ w (n : Int), (intLE w n).length = w ∧
      (decLE (intLE w n) : Int) = n % ((2 ^ (8 * w) : Nat) : Int)) := by
  refine ⟨fun n => ⟨rfl, rfl, rfl, rfl, rfl⟩,
    fun n => ⟨rfl, rfl, rfl, rfl, rfl⟩, fun b => ?_, fun opts n => rfl,
    fun w n => ⟨natLE_length w n, decLE_natLE w n⟩,
    fun w n => ⟨intLE_length w n, decLE_intLE w n⟩⟩
  cases b <;> rfl

/-- Claim C7: visiting a string writes exactly its raw bytes with no length
prefix or delimiter, and consequently the two slices of strings ab, c and
a, bc, whose string components concatenate to the same byte sequence, hash
identically under any options. -/
theorem string_raw_bytes_no_delimiter :
    (∀ s, visit (.VString s) = .ok s) ∧
    (∀ opts, Hash (.VSlice [.VString [97, 98], .VString [99]]) opts =
      Hash (.VSlice [.VString [97], .VString [98, 99]]) opts) :=
  ⟨fun _ => rfl, fun _ => rfl⟩

/-- Claim C3 exhibit: the struct case of visit writes only the field values
and never the nominal type name, so two records of different nominal types
with identical field contents always hash identically; in particular the
testFoo and testBar records of TestHash_equal, both holding the single field
Name with value foo, collide, contradicting that test and the claim. -/
theorem struct_type_name_not_hashed :
    (∀ n₁ n₂ fields opts, Hash (.VStruct n₁ fields) opts = Hash (.VStruct n₂ fields) opts) ∧
    Hash (.VStruct "testFoo" [(⟨"Name", "", false⟩, .VString [102, 111, 111])]) none =
      Hash (.VStruct "testBar" [(⟨"Name", "", false⟩, .VString [102, 111, 111])]) none :=
  ⟨fun _ _ _ _ => rfl, rfl⟩

theorem visitFields_append_empty_string (fs : List (FieldMeta × GoValue)) (meta : FieldMeta) :
    visitFields (fs ++ [(meta, .VString [])]) = visitFields fs := by
  induction fs with
  | nil =>
    by_cases h : meta.canSet = true ∨ meta.name ≠ "_"
    · simp only [List.nil_append, visitFields, if_pos h]
      rfl
    · simp only [List.nil_append, visitFields, if_neg h]
  | cons f rest ih =>
    obtain ⟨m, v⟩ := f
    by_cases h : m.canSet = true ∨ m.name ≠ "_"
    · simp only [List.cons_append, List.append_eq, visitFields, if_pos h, ih]
    · simp only [List.cons_append, List.append_eq, visitFields, if_neg h, ih]

/-- Claim C6 exhibit: an exported field holding the zero value of the string
type writes no bytes, so a record with such an extra field hashes exactly
like the record lacking it, for every options; in particular the record with
fields Foo holding foo and Bar holding the empty string collides with the
record holding only Foo, contradicting the note on Hash in the source that
adding an exported zero-value field changes the hash value. -/
theorem zero_string_field_added_hash_unchanged :
    (∀ n n' fs meta opts, Hash (.VStruct n' (fs ++ [(meta, .VString [])])) opts =
      Hash (.VStruct n fs) opts) ∧
    Hash (.VStruct "Rp" [(⟨"Foo", "", false⟩, .VString [102, 111, 111]),
        (⟨"Bar", "", false⟩, .VString [])]) none =
      Hash (.VStruct "R" [(⟨"Foo", "", false⟩, .VString [102, 111, 111])]) none := by
  constructor
  · intro n n' fs meta opts
    show (visitFields (fs ++ [(meta, .VString [])])).map _ = (visitFields fs).map _
    rw [visitFields_append_empty_string]
  · rfl

theorem visitTagFields_congr (fs gs : List (FieldMeta × GoValue))
    (h : List.Forall₂ (fun f g => f.1 = g.1 ∧ (f.1.tag = "ignore" ∨ f.2 = g.2)) fs gs) :
    visitTagFields fs = visitTagFields gs := by
  induction h with
  | nil => rfl
  | @cons f g fs' gs' hfg hrest ih =>
    obtain ⟨mf, vf⟩ := f
    obtain ⟨mg, vg⟩ := g
    obtain ⟨hmeta, hval⟩ := hfg
    cases hmeta
    by_cases h1 : mf.canSet = true ∨ mf.name ≠ "_"
    · by_cases h2 : mf.tag = "ignore"
      · simp only [visitTagFields, if_pos h1, if_pos h2, ih]
      · have hv : vf = vg := by
          rcases hval with h' | h'
          · exact absurd h' h2
          · exact h'
        cases hv
        simp only [visitTagFields, if_pos h1, if_neg h2, ih]
    · simp only [visitTagFields, if_neg h1, ih]

/-- Claim C8: a field carrying the ignore directive is excluded from hashing
unconditionally, so two records of the same type whose field lists agree
except possibly in the values of ignore-directed fields hash identically
under any options (tagged variant, second file of src/unnamed/part_000). -/
theorem ignore_directive_excludes_field (n : String)
    (fs gs : List (FieldMeta × GoValue))
    (h : List.Forall₂ (fun f g => f.1 = g.1 ∧ (f.1.tag = "ignore" ∨ f.2 = g.2)) fs gs)
    (opts : Option (Bytes → Nat)) :
    HashTag (.VStruct n fs) opts = HashTag (.VStruct n gs) opts := by
  show (visitTagFields fs).map _ = (visitTagFields gs).map _
  rw [visitTagFields_congr fs gs h]

/-- Claim C8 witness: the Test record of TestHash_equalIgnore with Name foo
and an ignore-directed UUID field holding foo hashes equal to the one whose
UUID holds bar. -/
theorem ignore_directive_excludes_field_witness :
    List.Forall₂ (fun f g => f.1 = g.1 ∧ (f.1.tag = "ignore" ∨ f.2 = g.2))
      ([(⟨"Name", "", false⟩, .VString [102, 111, 111]),
        (⟨"UUID", "ignore", false⟩, .VString [102, 111, 111])] :
        List (FieldMeta × GoValue))
      [(⟨"Name", "", false⟩, .VString [102, 111, 111]),
        (⟨"UUID", "ignore", false⟩, .VString [98, 97, 114])] ∧
    HashTag (.VStruct "Test" [(⟨"Name", "", false⟩, .VString [102, 111, 111]),
        (⟨"UUID", "ignore", false⟩, .VString [102, 111, 111])]) none =
      HashTag (.VStruct "Test" [(⟨"Name", "", false⟩, .VString [102, 111, 111]),
        (⟨"UUID", "ignore", false⟩, .VString [98, 97, 114])]) none := by
  have hf : List.Forall₂ (fun f g => f.1 = g.1 ∧ (f.1.tag = "ignore" ∨ f.2 = g.2))
      [((⟨"Name", "", false⟩ : FieldMeta), GoValue.VString [102, 111, 111]),
        (⟨"UUID", "ignore", false⟩, .VString [102, 111, 111])]
      [(⟨"Name", "", false⟩, .VString [102, 111, 111]),
        (⟨"UUID", "ignore", false⟩, .VString [98, 97, 114])] :=
    List.Forall₂.cons ⟨rfl, Or.inr rfl⟩
      (List.Forall₂.cons ⟨rfl, Or.inl rfl⟩ List.Forall₂.nil)
  exact ⟨hf, ignore_directive_excludes_field "Test" _ _ hf none⟩

theorem visitPolicyFields_append (pre rest : List (FieldMeta × GoValue × Option Bytes))
    (bs : Bytes) (h : visitPolicyFields pre = .ok bs) :
    visitPolicyFields (pre ++ rest) = (visitPolicyFields rest).map (bs ++ ·) := by
  induction pre generalizing bs with
  | nil =>
    simp only [visitPolicyFields] at h
    cases h
    simp only [List.nil_append]
    cases visitPolicyFields rest <;> simp [Except.map]
  | cons f pre' ih =>
    obtain ⟨m, v, s⟩ := f
    cases s with
    | none =>
      by_cases h1 : m.tag = "ignore"
      · rw [visitPolicyFields, if_pos h1] at h
        rw [List.cons_append, visitPolicyFields, if_pos h1]
        exact ih bs h
      · by_cases h2 : m.tag = "string"
        · rw [visitPolicyFields, if_neg h1, if_pos h2] at h
          exact absurd h (by simp)
        · rw [visitPolicyFields, if_neg h1, if_neg h2] at h
          rw [List.cons_append, visitPolicyFields, if_neg h1, if_neg h2]
          cases hv : visit v with
          | error e => rw [hv] at h; exact absurd h (by simp)
          | ok b =>
            rw [hv] at h
            cases hp : visitPolicyFields pre' with
            | error e => rw [hp] at h; exact absurd h (by simp)
            | ok tail =>
              rw [hp] at h
              simp only at h
              cases h
              rw [ih tail hp]
              cases visitPolicyFields rest <;> simp [Except.map]
    | some r =>
      by_cases h1 : m.tag = "ignore"
      · rw [visitPolicyFields, if_pos h1] at h
        rw [List.cons_append, visitPolicyFields, if_pos h1]
        exact ih bs h
      · by_cases h2 : m.tag = "string"
        · rw [visitPolicyFields, if_neg h1, if_pos h2] at h
          rw [List.cons_append, visitPolicyFields, if_neg h1, if_pos h2]
          cases hp : visitPolicyFields pre' with
          | error e => rw [hp] at h; exact absurd h (by simp)
          | ok tail =>
            rw [hp] at h
            simp only at h
            cases h
            rw [ih tail hp]
            cases visitPolicyFields rest <;> simp [Except.map]
        · rw [visitPolicyFields, if_neg h1, if_neg h2] at h
          rw [List.cons_append, visitPolicyFields, if_neg h1, if_neg h2]
          cases hv : visit v with
          | error e => rw [hv] at h; exact absurd h (by simp)
          | ok b =>
            rw [hv] at h
            cases hp : visitPolicyFields pre' with
            | error e => rw [hp] at h; exact absurd h (by simp)
            | ok tail =>
              rw [hp] at h
              simp only at h
              cases h
              rw [ih tail hp]
              cases visitPolicyFields rest <;> simp [Except.map]

/-- Claim C9 (modelled from the spec; only the error type of the string
directive is in src, in include.go): after any error-free prefix of fields,
a string-directive field whose value lacks the textual-representation
capability makes the field walk fail with a NotStringerError naming that
field, and when the capability is present its textual representation is
hashed in place of the field value. -/
theorem string_directive_policy (pre post : List (FieldMeta × GoValue × Option Bytes))
    (meta : FieldMeta) (v : GoValue) (r bs : Bytes)
    (hpre : visitPolicyFields pre = .ok bs) (htag : meta.tag = "string") :
    visitPolicyFields (pre ++ (meta, v, none) :: post) = .error (.notStringer meta.name) ∧
    visitPolicyFields (pre ++ (meta, v, some r) :: post) =
      (visitPolicyFields post).map (fun t => bs ++ (r ++ t)) := by
  have hni : meta.tag ≠ "ignore" := by rw [htag]; decide
  constructor
  · rw [visitPolicyFields_append pre _ bs hpre]
    rw [visitPolicyFields, if_neg hni, if_pos htag]
    simp [Except.map]
  · rw [visitPolicyFields_append pre _ bs hpre]
    rw [visitPolicyFields, if_neg hni, if_pos htag]
    cases visitPolicyFields post <;> simp [Except.map]

/-- Claim C9 witness: a record holding one string-directive field fails with
NotStringerError naming it when the capability is absent, and hashes its
textual representation when present. -/
theorem string_directive_policy_witness :
    visitPolicyFields [] = .ok ([] : Bytes) ∧
    ({ name := "S", tag := "string", canSet := false } : FieldMeta).tag = "string" ∧
    (visitPolicyFields ([] ++ (⟨"S", "string", false⟩, .VBool true, none) :: []) =
        .error (.notStringer "S") ∧
      visitPolicyFields ([] ++ (⟨"S", "string", false⟩, .VBool true, some [120]) :: []) =
        (visitPolicyFields []).map (fun t => [] ++ ([120] ++ t))) :=
  ⟨rfl, rfl, string_directive_policy [] [] ⟨"S", "string", false⟩ (.VBool true) [120] [] rfl rfl⟩

/-! Helper lemmas about the digest-to-index map, the sort and counting. -/

theorem mLookup_mInsert (m : List (Nat × Int)) (d : Nat) (i : Int) (d' : Nat) :
    mLookup (mInsert m d i) d' = if d' = d then some i else mLookup m d' := by
  induction m with
  | nil =>
    by_cases h : d' = d
    · subst h
      simp [mInsert, mLookup]
    · simp [mInsert, mLookup, h, Ne.symm h]
  | cons p rest ih =>
    by_cases h1 : p.1 = d
    · rw [mInsert, if_pos h1]
      by_cases h2 : d' = d
      · subst h2
        simp [mLookup]
      · simp [mLookup, h2, Ne.symm h2, h1]
    · rw [mInsert, if_neg h1]
      by_cases h2 : p.1 = d'
      · have h3 : d' ≠ d := fun hh => h1 (h2.trans hh)
        simp [mLookup, h2, h3]
      · simp only [mLookup, if_neg h2]
        exact ih

theorem mInsert_of_lookup_none (m : List (Nat × Int)) (d : Nat) (i : Int)
    (h : mLookup m d = none) : mInsert m d i = m ++ [(d, i)] := by
  induction m with
  | nil => rfl
  | cons p rest ih =>
    rw [mLookup] at h
    by_cases h1 : p.1 = d
    · rw [if_pos h1] at h
      exact absurd h (by simp)
    · rw [if_neg h1] at h
      rw [mInsert, if_neg h1, List.cons_append, ih h]

theorem mLookup_append (a b : List (Nat × Int)) (d : Nat) :
    mLookup (a ++ b) d =
      match mLookup a d with
      | some v => some v
      | none => mLookup b d := by
  induction a with
  | nil => simp [mLookup]
  | cons p rest ih =>
    by_cases h : p.1 = d
    · simp [mLookup, h]
    · simp only [List.cons_append, mLookup, if_neg h]
      exact ih

theorem mLookup_append_none (a b : List (Nat × Int)) (d : Nat)
    (h : mLookup a d = none) : mLookup (a ++ b) d = mLookup b d := by
  induction a with
  | nil => simp [mLookup]
  | cons p rest ih =>
    rw [mLookup] at h
    by_cases hp : p.1 = d
    · rw [if_pos hp] at h
      exact absurd h (by simp)
    · rw [if_neg hp] at h
      rw [List.cons_append, mLookup, if_neg hp]
      exact ih h

theorem mLookup_append_some (a b : List (Nat × Int)) (d : Nat) (v : Int)
    (h : mLookup a d = some v) : mLookup (a ++ b) d = some v := by
  induction a with
  | nil => simp [mLookup] at h
  | cons p rest ih =>
    rw [mLookup] at h
    by_cases hp : p.1 = d
    · rw [if_pos hp] at h
      rw [List.cons_append, mLookup, if_pos hp]
      exact h
    · rw [if_neg hp] at h
      rw [List.cons_append, mLookup, if_neg hp]
      exact ih h

theorem collectOk_ok_iff (l : List (Except GoErr Bytes)) (ss : List Bytes) :
    collectOk l = .ok ss ↔ l = ss.map Except.ok := by
  induction l generalizing ss with
  | nil =>
    cases ss <;> simp [collectOk]
  | cons x rest ih =>
    cases x with
    | error e =>
      cases ss <;> simp [collectOk]
    | ok s =>
      cases hr : collectOk rest with
      | error e =>
        simp only [collectOk, hr, Except.map]
        cases ss with
        | nil => simp
        | cons s' ss' =>
          simp only [List.map_cons]
          constructor
          · intro h
            exact absurd h (by simp)
          · intro h
            obtain ⟨h1, h2⟩ := List.cons.inj h
            cases h1
            exact absurd ((ih ss').mpr h2) (by simp [hr])
      | ok ss0 =>
        simp only [collectOk, hr, Except.map]
        cases ss with
        | nil =>
          simp only [List.map_nil]
          constructor
          · intro h
            exact absurd h (by simp)
          · intro h
            exact absurd h (by simp)
        | cons s' ss' =>
          constructor
          · intro h
            have h' := Except.ok.inj h
            obtain ⟨h1, h2⟩ := List.cons.inj h'
            cases h1
            have := (ih ss').mp (by rw [hr, h2])
            simp [this]
          · intro h
            obtain ⟨h1, h2⟩ := List.cons.inj h
            cases h1
            have := (ih ss').mpr h2
            rw [hr] at this
            have := Except.ok.inj this
            rw [this]

theorem insertOrd_perm (x : Nat) (l : List Nat) : (insertOrd x l).Perm (x :: l) := by
  induction l with
  | nil => exact List.Perm.refl _
  | cons y rest ih =>
    rw [insertOrd]
    by_cases h : x ≤ y
    · rw [if_pos h]
    · rw [if_neg h]
      exact (ih.cons y).trans (List.Perm.swap x y rest)

theorem insertOrd_sorted (x : Nat) (l : List Nat) (h : List.Pairwise (· ≤ ·) l) :
    List.Pairwise (· ≤ ·) (insertOrd x l) := by
  induction l with
  | nil => simp [insertOrd]
  | cons y rest ih =>
    rw [insertOrd]
    rw [List.pairwise_cons] at h
    by_cases hxy : x ≤ y
    · rw [if_pos hxy]
      refine List.pairwise_cons.mpr ⟨?_, List.pairwise_cons.mpr h⟩
      intro z hz
      rcases List.mem_cons.mp hz with h3 | h3
      · cases h3
        exact hxy
      · exact le_trans hxy (h.1 z h3)
    · rw [if_neg hxy]
      refine List.pairwise_cons.mpr ⟨?_, ih h.2⟩
      intro z hz
      have hz' := (insertOrd_perm x rest).mem_iff.mp hz
      rcases List.mem_cons.mp hz' with h3 | h3
      · cases h3
        exact le_of_not_le hxy
      · exact h.1 z h3

theorem sortNat_perm (l : List Nat) : (sortNat l).Perm l := by
  induction l with
  | nil => exact List.Perm.refl _
  | cons x rest ih =>
    exact (insertOrd_perm x (sortNat rest)).trans (ih.cons x)

theorem sortNat_sorted (l : List Nat) : List.Pairwise (· ≤ ·) (sortNat l) := by
  induction l with
  | nil => simp [sortNat]
  | cons x rest ih => exact insertOrd_sorted x (sortNat rest) ih

theorem two_indices_le_count (l : List Nat) (i j : Nat) (d : Nat) (hne : i ≠ j)
    (hi : l[i]? = some d) (hj : l[j]? = some d) : 2 ≤ l.count d := by
  induction l generalizing i j with
  | nil => simp at hi
  | cons x rest ih =>
    cases i with
    | zero =>
      cases j with
      | zero => exact absurd rfl hne
      | succ j' =>
        simp only [List.getElem?_cons_zero] at hi
        cases Option.some.inj hi
        simp only [List.getElem?_cons_succ] at hj
        have hmem : d ∈ rest := List.getElem?_mem hj
        have : 1 ≤ rest.count d := List.count_pos_iff.mpr hmem
        rw [List.count_cons_self]
        omega
    | succ i' =>
      cases j with
      | zero =>
        simp only [List.getElem?_cons_zero] at hj
        cases Option.some.inj hj
        simp only [List.getElem?_cons_succ] at hi
        have hmem : d ∈ rest := List.getElem?_mem hi
        have : 1 ≤ rest.count d := List.count_pos_iff.mpr hmem
        rw [List.count_cons_self]
        omega
      | succ j' =>
        simp only [List.getElem?_cons_succ] at hi hj
        have := ih i' j' (fun h => hne (congrArg Nat.succ h)) hi hj
        rw [List.count_cons]
        omega

theorem count_one_unique (l : List Nat) (d : Nat) (i j : Nat) (hc : l.count d = 1)
    (hi : l[i]? = some d) (hj : l[j]? = some d) : i = j := by
  by_contra hne
  have := two_indices_le_count l i j d hne hi hj
  omega

theorem count_append_singleton (l : List Nat) (d x : Nat) :
    (l ++ [d]).count x = l.count x + if x = d then 1 else 0 := by
  rw [List.count_append]
  by_cases h : x = d <;> simp [List.count_cons, h]

theorem getElem?_append_singleton_lt (l : List Nat) (d : Nat) (i : Nat)
    (h : i < l.length) : (l ++ [d])[i]? = l[i]? :=
  List.getElem?_append_left h

theorem getElem?_append_singleton_self (l : List Nat) (d : Nat) :
    (l ++ [d])[l.length]? = some d := by
  rw [List.getElem?_append_right (le_refl _)]
  simp

theorem getElem?_lt_length (l : List Nat) (i a : Nat) (h : l[i]? = some a) :
    i < l.length :=
  (List.getElem?_eq_some_iff.mp h).1

theorem P1Inv_step_new (ks : List Nat) (m : List (Nat × Int)) (coll : List Nat)
    (d : Nat) (hinv : P1Inv ks m coll) (h : mLookup m d = none) :
    P1Inv (ks ++ [d]) (mInsert m d (Int.ofNat ks.length)) coll := by
  obtain ⟨I1, I2, I3nd, I3⟩ := hinv
  have hd : d ∉ ks := (I1 d).mp h
  have hcnt : ks.count d = 0 := List.count_eq_zero.mpr hd
  refine ⟨?_, ?_, I3nd, ?_⟩
  · intro d'
    rw [mLookup_mInsert]
    by_cases hdd : d' = d
    · subst hdd
      simp
    · rw [if_neg hdd, I1]
      simp [hdd]
  · intro d' v hv
    rw [mLookup_mInsert] at hv
    by_cases hdd : d' = d
    · subst hdd
      rw [if_pos rfl] at hv
      cases Option.some.inj hv
      refine Or.inl ⟨Int.ofNat_nonneg _, ?_, ?_⟩
      · rw [count_append_singleton, hcnt, if_pos rfl]
      · exact getElem?_append_singleton_self ks _
    · rw [if_neg hdd] at hv
      rcases I2 d' v hv with ⟨h1, h2, h3⟩ | ⟨h1, h2⟩
      · refine Or.inl ⟨h1, ?_, ?_⟩
        · rw [count_append_singleton, if_neg hdd, h2]
        · rw [getElem?_append_singleton_lt _ _ _ (getElem?_lt_length _ _ _ h3)]
          exact h3
      · refine Or.inr ⟨h1, ?_⟩
        rw [count_append_singleton, if_neg hdd]
        omega
  · intro i
    rw [I3]
    constructor
    · rintro ⟨d', h1, h2⟩
      refine ⟨d', ?_, ?_⟩
      · rw [getElem?_append_singleton_lt _ _ _ (getElem?_lt_length _ _ _ h1)]
        exact h1
      · rw [count_append_singleton]
        omega
    · rintro ⟨d', h1, h2⟩
      by_cases hi : i < ks.length
      · rw [getElem?_append_singleton_lt _ _ _ hi] at h1
        refine ⟨d', h1, ?_⟩
        rw [count_append_singleton] at h2
        by_cases hdd : d' = d
        · subst hdd
          rw [if_pos rfl] at h2
          have : d' ∈ ks := List.getElem?_mem h1
          exact absurd this hd
        · rw [if_neg hdd] at h2
          omega
      · have hlen : i < (ks ++ [d]).length := getElem?_lt_length _ _ _ h1
        rw [List.length_append, List.length_singleton] at hlen
        have : i = ks.length := by omega
        subst this
        rw [getElem?_append_singleton_self] at h1
        cases Option.some.inj h1
        rw [count_append_singleton, hcnt, if_pos rfl] at h2
        omega

theorem mem_coll_append2 (coll : List Nat) (a b i : Nat) :
    i ∈ coll ++ [a] ++ [b] ↔ i ∈ coll ∨ i = a ∨ i = b := by
  simp [List.mem_append]

theorem P1Inv_step_coll2 (ks : List Nat) (m : List (Nat × Int)) (coll : List Nat)
    (d : Nat) (v : Int) (hinv : P1Inv ks m coll) (h : mLookup m d = some v)
    (hv : 0 ≤ v) :
    P1Inv (ks ++ [d]) (mInsert m d (-1)) (coll ++ [v.toNat] ++ [ks.length]) := by
  obtain ⟨I1, I2, I3nd, I3⟩ := hinv
  have hcase := I2 d v h
  rcases hcase with ⟨_, hc1, hg⟩ | ⟨hv1, _⟩
  swap
  · subst hv1
    exact absurd hv (by omega)
  have hvlt : v.toNat < ks.length := getElem?_lt_length _ _ _ hg
  have hdmem : d ∈ ks := List.getElem?_mem hg
  have hvcoll : v.toNat ∉ coll := by
    intro hmem
    obtain ⟨d'', h1, h2⟩ := (I3 v.toNat).mp hmem
    rw [hg] at h1
    cases Option.some.inj h1
    omega
  have hlencoll : ks.length ∉ coll := by
    intro hmem
    obtain ⟨d'', h1, _⟩ := (I3 ks.length).mp hmem
    have := getElem?_lt_length _ _ _ h1
    omega
  refine ⟨?_, ?_, ?_, ?_⟩
  · intro d'
    rw [mLookup_mInsert]
    by_cases hdd : d' = d
    · subst hdd
      simp [hdmem]
    · rw [if_neg hdd, I1]
      simp [hdd]
  · intro d' v' hv'
    rw [mLookup_mInsert] at hv'
    by_cases hdd : d' = d
    · subst hdd
      rw [if_pos rfl] at hv'
      cases Option.some.inj hv'
      refine Or.inr ⟨rfl, ?_⟩
      rw [count_append_singleton, hc1, if_pos rfl]
    · rw [if_neg hdd] at hv'
      rcases I2 d' v' hv' with ⟨h1, h2, h3⟩ | ⟨h1, h2⟩
      · refine Or.inl ⟨h1, ?_, ?_⟩
        · rw [count_append_singleton, if_neg hdd, h2]
        · rw [getElem?_append_singleton_lt _ _ _ (getElem?_lt_length _ _ _ h3)]
          exact h3
      · refine Or.inr ⟨h1, ?_⟩
        rw [count_append_singleton, if_neg hdd]
        omega
  · rw [List.append_assoc]
    rw [List.nodup_append]
    refine ⟨I3nd, ?_, ?_⟩
    · simp
      omega
    · intro x hx hmem
      simp at hmem
      rcases hmem with hmem | hmem
      · subst hmem
        exact hvcoll hx
      · subst hmem
        exact hlencoll hx
  · intro i
    rw [mem_coll_append2]
    constructor
    · rintro (hmem | rfl | rfl)
      · obtain ⟨d'', h1, h2⟩ := (I3 i).mp hmem
        refine ⟨d'', ?_, ?_⟩
        · rw [getElem?_append_singleton_lt _ _ _ (getElem?_lt_length _ _ _ h1)]
          exact h1
        · rw [count_append_singleton]
          omega
      · refine ⟨d, ?_, ?_⟩
        · rw [getElem?_append_singleton_lt _ _ _ hvlt]
          exact hg
        · rw [count_append_singleton, hc1, if_pos rfl]
      · refine ⟨d, getElem?_append_singleton_self ks d, ?_⟩
        rw [count_append_singleton, hc1, if_pos rfl]
    · rintro ⟨d', h1, h2⟩
      by_cases hi : i < ks.length
      · rw [getElem?_append_singleton_lt _ _ _ hi] at h1
        by_cases hdd : d' = d
        · subst hdd
          have : i = v.toNat := count_one_unique ks d' i v.toNat hc1 h1 hg
          exact Or.inr (Or.inl this)
        · rw [count_append_singleton, if_neg hdd] at h2
          exact Or.inl ((I3 i).mpr ⟨d', h1, by omega⟩)
      · have hlen : i < (ks ++ [d]).length := getElem?_lt_length _ _ _ h1
        rw [List.length_append, List.length_singleton] at hlen
        have : i = ks.length := by omega
        exact Or.inr (Or.inr this)

theorem P1Inv_step_coll3 (ks : List Nat) (m : List (Nat × Int)) (coll : List Nat)
    (d : Nat) (v : Int) (hinv : P1Inv ks m coll) (h : mLookup m d = some v)
    (hv : ¬ 0 ≤ v) :
    P1Inv (ks ++ [d]) m (coll ++ [ks.length]) := by
  obtain ⟨I1, I2, I3nd, I3⟩ := hinv
  have hcase := I2 d v h
  rcases hcase with ⟨h1, _, _⟩ | ⟨hv1, hc2⟩
  · exact absurd h1 hv
  have hdmem : d ∈ ks := by
    have : 0 < ks.count d := by omega
    exact List.count_pos_iff.mp this
  have hlencoll : ks.length ∉ coll := by
    intro hmem
    obtain ⟨d'', h1, _⟩ := (I3 ks.length).mp hmem
    have := getElem?_lt_length _ _ _ h1
    omega
  refine ⟨?_, ?_, ?_, ?_⟩
  · intro d'
    by_cases hdd : d' = d
    · subst hdd
      rw [h]
      simp [hdmem]
    · rw [I1]
      simp [hdd]
  · intro d' v' hv'
    by_cases hdd : d' = d
    · subst hdd
      rw [h] at hv'
      cases Option.some.inj hv'
      refine Or.inr ⟨hv1, ?_⟩
      rw [count_append_singleton]
      omega
    · rcases I2 d' v' hv' with ⟨h1, h2, h3⟩ | ⟨h1, h2⟩
      · refine Or.inl ⟨h1, ?_, ?_⟩
        · rw [count_append_singleton, if_neg hdd, h2]
        · rw [getElem?_append_singleton_lt _ _ _ (getElem?_lt_length _ _ _ h3)]
          exact h3
      · refine Or.inr ⟨h1, ?_⟩
        rw [count_append_singleton, if_neg hdd]
        omega
  · rw [List.nodup_append]
    refine ⟨I3nd, List.nodup_singleton _, ?_⟩
    intro x hx hmem
    rw [List.mem_singleton] at hmem
    subst hmem
    exact hlencoll hx
  · intro i
    rw [List.mem_append, List.mem_singleton]
    constructor
    · rintro (hmem | rfl)
      · obtain ⟨d'', h1, h2⟩ := (I3 i).mp hmem
        refine ⟨d'', ?_, ?_⟩
        · rw [getElem?_append_singleton_lt _ _ _ (getElem?_lt_length _ _ _ h1)]
          exact h1
        · rw [count_append_singleton]
          omega
      · refine ⟨d, getElem?_append_singleton_self ks d, ?_⟩
        rw [count_append_singleton, if_pos rfl]
        omega
    · rintro ⟨d', h1, h2⟩
      by_cases hi : i < ks.length
      · rw [getElem?_append_singleton_lt _ _ _ hi] at h1
        by_cases hdd : d' = d
        · subst hdd
          exact Or.inl ((I3 i).mpr ⟨d', h1, hc2⟩)
        · rw [count_append_singleton, if_neg hdd] at h2
          exact Or.inl ((I3 i).mpr ⟨d', h1, by omega⟩)
      · have hlen : i < (ks ++ [d]).length := getElem?_lt_length _ _ _ h1
        rw [List.length_append, List.length_singleton] at hlen
        have : i = ks.length := by omega
        exact Or.inr this

theorem pass1_spec (ss : List Bytes) :
    ∀ ks m coll, P1Inv ks m coll →
      (pass1 ss ks m coll).1 = ks ++ ss.map crc64 ∧
      P1Inv (pass1 ss ks m coll).1 (pass1 ss ks m coll).2.1 (pass1 ss ks m coll).2.2 := by
  induction ss with
  | nil =>
    intro ks m coll hinv
    exact ⟨by simp [pass1], hinv⟩
  | cons s rest ih =>
    intro ks m coll hinv
    rw [pass1]
    cases hl : mLookup m (crc64 s) with
    | none =>
      simp only
      have hstep := P1Inv_step_new ks m coll (crc64 s) hinv hl
      have := ih (ks ++ [crc64 s]) _ _ hstep
      refine ⟨?_, this.2⟩
      rw [this.1, List.map_cons, List.append_assoc]
      rfl
    | some v =>
      simp only
      by_cases hv : 0 ≤ v
      · rw [if_pos hv]
        have hstep := P1Inv_step_coll2 ks m coll (crc64 s) v hinv hl hv
        have := ih (ks ++ [crc64 s]) _ _ hstep
        refine ⟨?_, this.2⟩
        rw [this.1, List.map_cons, List.append_assoc]
        rfl
      · rw [if_neg hv]
        have hstep := P1Inv_step_coll3 ks m coll (crc64 s) v hinv hl hv
        have := ih (ks ++ [crc64 s]) _ _ hstep
        refine ⟨?_, this.2⟩
        rw [this.1, List.map_cons, List.append_assoc]
        rfl

theorem fallback_ok_spec (ss : List Bytes) (cs : List Nat) :
    ∀ ks m ksF mF, fallback ss cs ks m = .ok (ksF, mF) →
      mF = m ++ cs.map (fun c => (fnv64 (ss.getD c []), Int.ofNat c)) ∧
      ksF = cs.foldl (fun a c => a.set c (fnv64 (ss.getD c []))) ks ∧
      (∀ cs₁ c cs₂, cs = cs₁ ++ c :: cs₂ →
        mLookup (m ++ cs₁.map (fun c' => (fnv64 (ss.getD c' []), Int.ofNat c')))
          (fnv64 (ss.getD c [])) = none) := by
  induction cs with
  | nil =>
    intro ks m ksF mF h
    rw [fallback] at h
    have h' := Except.ok.inj h
    obtain ⟨h1, h2⟩ := Prod.mk.injEq .. ▸ h'
    refine ⟨by simp [h2.symm], by simp [h1.symm], ?_⟩
    intro cs₁ c cs₂ hcs
    exact absurd hcs.symm (List.append_ne_nil_of_right_ne_nil _ (by simp))
  | cons c cs' ih =>
    intro ks m ksF mF h
    rw [fallback] at h
    cases hl : mLookup m (fnv64 (ss.getD c [])) with
    | some v =>
      rw [hl] at h
      exact absurd h (by simp)
    | none =>
      rw [hl] at h
      simp only at h
      rw [mInsert_of_lookup_none m _ _ hl] at h
      obtain ⟨hm, hk, hsplit⟩ := ih _ _ _ _ h
      refine ⟨?_, ?_, ?_⟩
      · rw [hm, List.append_assoc]
        rfl
      · rw [hk, List.foldl_cons]
      · intro cs₁ c₀ cs₂ hcs
        cases cs₁ with
        | nil =>
          simp only [List.nil_append] at hcs
          obtain ⟨h1, _⟩ := List.cons.inj hcs
          subst h1
          simpa using hl
        | cons c₁ cs₁' =>
          rw [List.cons_append] at hcs
          obtain ⟨h1, h2⟩ := List.cons.inj hcs
          subst h1
          have := hsplit cs₁' c₀ cs₂ h2
          rw [List.append_assoc] at this
          exact this

theorem fallback_error_spec (ss : List Bytes) (cs : List Nat) :
    ∀ ks m e, fallback ss cs ks m = .error e →
      ∃ cs₁ c cs₂, cs = cs₁ ++ c :: cs₂ ∧ e = .unresolvableCollision c ∧
        (mLookup (m ++ cs₁.map (fun c' => (fnv64 (ss.getD c' []), Int.ofNat c')))
          (fnv64 (ss.getD c []))).isSome = true := by
  induction cs with
  | nil =>
    intro ks m e h
    rw [fallback] at h
    exact absurd h (by simp)
  | cons c cs' ih =>
    intro ks m e h
    rw [fallback] at h
    cases hl : mLookup m (fnv64 (ss.getD c [])) with
    | some v =>
      rw [hl] at h
      simp only at h
      have he := Except.error.inj h
      refine ⟨[], c, cs', rfl, he.symm, ?_⟩
      simp only [List.map_nil, List.append_nil]
      rw [hl]
      rfl
    | none =>
      rw [hl] at h
      simp only at h
      rw [mInsert_of_lookup_none m _ _ hl] at h
      obtain ⟨cs₁, c₀, cs₂, h1, h2, h3⟩ := ih _ _ _ h
      refine ⟨c :: cs₁, c₀, cs₂, by rw [h1, List.cons_append], h2, ?_⟩
      rw [List.append_assoc] at h3
      exact h3

theorem foldl_set_getElem (g : Nat → Nat) (cs : List Nat) :
    ∀ (ks : List Nat) (i : Nat), cs.Nodup →
      (cs.foldl (fun (a : List Nat) c => a.set c (g c)) ks)[i]? =
        if i ∈ cs then (if i < ks.length then some (g i) else none) else ks[i]? := by
  induction cs with
  | nil =>
    intro ks i _
    simp
  | cons c cs' ih =>
    intro ks i hnd
    rw [List.nodup_cons] at hnd
    rw [List.foldl_cons, ih (ks.set c (g c)) i hnd.2]
    by_cases hic : i ∈ cs'
    · rw [if_pos hic, if_pos (List.mem_cons.mpr (Or.inr hic)), List.length_set]
    · rw [if_neg hic]
      by_cases hieq : i = c
      · subst hieq
        rw [if_pos (List.mem_cons.mpr (Or.inl rfl)), List.getElem?_set, if_pos rfl]
      · rw [if_neg (by simp [hieq, hic]), List.getElem?_set, if_neg (fun hh => hieq hh.symm)]

theorem P1Inv_nil : P1Inv [] [] [] := by
  refine ⟨?_, ?_, List.nodup_nil, ?_⟩
  · intro d
    simp [mLookup]
  · intro d v hv
    simp [mLookup] at hv
  · intro i
    simp

theorem collectOk_map_ok (ss : List Bytes) : collectOk (ss.map Except.ok) = .ok ss :=
  (collectOk_ok_iff _ _).mpr rfl

theorem finalDigests_length (ss : List Bytes) : (finalDigests ss).length = ss.length :=
  List.length_map ..

theorem finalDigests_getElem (ss : List Bytes) (i : Nat) (s : Bytes)
    (hs : ss[i]? = some s) :
    (finalDigests ss)[i]? =
      some (if 2 ≤ (ss.map crc64).count (crc64 s) then fnv64 s else crc64 s) := by
  rw [finalDigests, List.getElem?_map, hs]
  rfl

theorem map_crc_getElem (ss : List Bytes) (i : Nat) (s : Bytes) (hs : ss[i]? = some s) :
    (ss.map crc64)[i]? = some (crc64 s) := by
  rw [List.getElem?_map, hs]
  rfl

theorem getD_of_getElem? (ss : List Bytes) (i : Nat) (s : Bytes) (hs : ss[i]? = some s) :
    ss.getD i [] = s := by
  rw [List.getD_eq_getElem?_getD, hs]
  rfl

theorem ksF_eq_finalDigests (ss : List Bytes) (m : List (Nat × Int)) (coll : List Nat)
    (hinv : P1Inv (ss.map crc64) m coll) :
    coll.foldl (fun (a : List Nat) c => a.set c (fnv64 (ss.getD c []))) (ss.map crc64) =
      finalDigests ss := by
  obtain ⟨I1, I2, I3nd, I3⟩ := hinv
  apply List.ext_getElem?
  intro i
  rw [foldl_set_getElem _ _ _ _ I3nd]
  by_cases hi : i < ss.length
  · obtain ⟨s, hs⟩ : ∃ s, ss[i]? = some s :=
      ⟨ss[i], List.getElem?_eq_some_iff.mpr ⟨hi, rfl⟩⟩
    rw [finalDigests_getElem ss i s hs]
    have hki : (ss.map crc64)[i]? = some (crc64 s) := map_crc_getElem ss i s hs
    have hcoll_iff : i ∈ coll ↔ 2 ≤ (ss.map crc64).count (crc64 s) := by
      rw [I3 i]
      constructor
      · rintro ⟨d, h1, h2⟩
        rw [hki] at h1
        cases Option.some.inj h1
        exact h2
      · intro h2
        exact ⟨crc64 s, hki, h2⟩
    by_cases hic : i ∈ coll
    · rw [if_pos hic, if_pos (by rw [List.length_map]; exact hi),
        getD_of_getElem? ss i s hs, if_pos (hcoll_iff.mp hic)]
    · rw [if_neg hic, hki, if_neg (fun hh => hic (hcoll_iff.mpr hh))]
  · have h1 : (ss.map crc64)[i]? = none := by
      rw [List.getElem?_eq_none]
      rw [List.length_map]
      omega
    have h2 : (finalDigests ss)[i]? = none := by
      rw [List.getElem?_eq_none]
      rw [finalDigests_length]
      omega
    rw [h2]
    by_cases hic : i ∈ coll
    · rw [if_pos hic, if_neg (by rw [List.length_map]; omega)]
    · rw [if_neg hic, h1]

theorem mF_lookup (ss : List Bytes) (m : List (Nat × Int)) (coll : List Nat)
    (hinv : P1Inv (ss.map crc64) m coll)
    (hnc : ∀ cs₁ c cs₂, coll = cs₁ ++ c :: cs₂ →
      mLookup (m ++ cs₁.map (fun c' => (fnv64 (ss.getD c' []), Int.ofNat c')))
        (fnv64 (ss.getD c [])) = none)
    (i : Nat) (t : Nat) (ht : (finalDigests ss)[i]? = some t) :
    mLookup (m ++ coll.map (fun c => (fnv64 (ss.getD c []), Int.ofNat c))) t =
      some (Int.ofNat i) := by
  obtain ⟨I1, I2, I3nd, I3⟩ := hinv
  have hi : i < ss.length := by
    have := getElem?_lt_length _ _ _ ht
    rwa [finalDigests_length] at this
  obtain ⟨s, hs⟩ : ∃ s, ss[i]? = some s :=
    ⟨ss[i], List.getElem?_eq_some_iff.mpr ⟨hi, rfl⟩⟩
  rw [finalDigests_getElem ss i s hs] at ht
  have htv := Option.some.inj ht
  have hki : (ss.map crc64)[i]? = some (crc64 s) := map_crc_getElem ss i s hs
  have hgd : ss.getD i [] = s := getD_of_getElem? ss i s hs
  have hcoll_iff : i ∈ coll ↔ 2 ≤ (ss.map crc64).count (crc64 s) := by
    rw [I3 i]
    constructor
    · rintro ⟨d, h1, h2⟩
      rw [hki] at h1
      cases Option.some.inj h1
      exact h2
    · intro h2
      exact ⟨crc64 s, hki, h2⟩
  by_cases hic : i ∈ coll
  · rw [if_pos (hcoll_iff.mp hic)] at htv
    obtain ⟨cs₁, cs₂, hsp⟩ := List.append_of_mem hic
    have hnone := hnc cs₁ i cs₂ hsp
    rw [hgd, htv] at hnone
    rw [hsp, List.map_append, List.map_cons, ← List.append_assoc,
      mLookup_append_none _ _ _ hnone]
    simp [mLookup, hs, htv]
  · rw [if_neg (fun hh => hic (hcoll_iff.mpr hh))] at htv
    have hmem : crc64 s ∈ ss.map crc64 := List.getElem?_mem hki
    have hge : 1 ≤ (ss.map crc64).count (crc64 s) := List.count_pos_iff.mpr hmem
    have hle : ¬ 2 ≤ (ss.map crc64).count (crc64 s) := fun h2 => hic (hcoll_iff.mpr h2)
    have hc1 : (ss.map crc64).count (crc64 s) = 1 := by omega
    cases hlm : mLookup m (crc64 s) with
    | none => exact absurd ((I1 _).mp hlm) (by simp [hmem])
    | some v =>
      rcases I2 _ v hlm with ⟨hv0, _, hg⟩ | ⟨_, h2⟩
      · have hvi : v.toNat = i := count_one_unique _ _ v.toNat i hc1 hg hki
        have hv : v = Int.ofNat i := by
          rw [Int.ofNat_eq_natCast, ← hvi, Int.toNat_of_nonneg hv0]
        rw [← htv, mLookup_append_some _ _ _ _ hlm, hv]
      · exact absurd h2 hle

theorem finalDigests_nodup_of_lookup (ss : List Bytes) (mF : List (Nat × Int))
    (hlk : ∀ i t, (finalDigests ss)[i]? = some t → mLookup mF t = some (Int.ofNat i)) :
    (finalDigests ss).Nodup := by
  rw [List.nodup_iff_injective_get]
  intro a b hab
  have ha : (finalDigests ss)[a.1]? = some ((finalDigests ss).get a) :=
    List.getElem?_eq_some_iff.mpr ⟨a.2, (List.get_eq_getElem ..).symm⟩
  have hb : (finalDigests ss)[b.1]? = some ((finalDigests ss).get b) :=
    List.getElem?_eq_some_iff.mpr ⟨b.2, (List.get_eq_getElem ..).symm⟩
  have h1 := hlk a.1 _ ha
  have h2 := hlk b.1 _ hb
  rw [hab] at h1
  rw [h1] at h2
  have h3 := Option.some.inj h2
  rw [Int.ofNat_eq_natCast, Int.ofNat_eq_natCast] at h3
  have h4 : a.1 = b.1 := by exact_mod_cast h3
  exact Fin.ext h4

theorem sortValues_core_ok (ss : List Bytes) (idxs : List Int)
    (h : sortValues (ss.map Except.ok) = .ok idxs) :
    (∀ e ∈ idxs, ∃ i : Nat, e = Int.ofNat i ∧ i < ss.length) ∧
    (idxs.map Int.toNat).Perm (List.range ss.length) ∧
    List.Pairwise (· < ·) (idxs.map (fun e => (finalDigests ss).getD e.toNat 0)) := by
  rw [sortValues, collectOk_map_ok] at h
  simp only at h
  rcases hp : pass1 ss [] [] [] with ⟨ks, m, coll⟩
  rw [hp] at h
  simp only at h
  have hps := pass1_spec ss [] [] [] P1Inv_nil
  rw [hp] at hps
  simp only [List.nil_append] at hps
  obtain ⟨hks, hinv⟩ := hps
  subst hks
  cases hf : fallback ss coll (ss.map crc64) m with
  | error e =>
    rw [hf] at h
    exact absurd h (by simp)
  | ok r =>
    obtain ⟨ksF, mF⟩ := r
    rw [hf] at h
    simp only at h
    have hidxs := (Except.ok.inj h).symm
    obtain ⟨hm, hk, hnc⟩ := fallback_ok_spec ss coll (ss.map crc64) m ksF mF hf
    have hksF : ksF = finalDigests ss := by
      rw [hk]
      exact ksF_eq_finalDigests ss m coll hinv
    have hlk : ∀ i t, (finalDigests ss)[i]? = some t →
        mLookup mF t = some (Int.ofNat i) := by
      intro i t ht
      rw [hm]
      exact mF_lookup ss m coll hinv hnc i t ht
    have hnd : (finalDigests ss).Nodup := finalDigests_nodup_of_lookup ss mF hlk
    rw [hksF] at hidxs
    have hperm : (sortNat (finalDigests ss)).Perm (finalDigests ss) :=
      sortNat_perm _
    have hsnd : (sortNat (finalDigests ss)).Nodup := hperm.symm.nodup hnd
    have hslt : List.Pairwise (· < ·) (sortNat (finalDigests ss)) :=
      ((sortNat_sorted (finalDigests ss)).and hsnd).imp
        (fun hh => lt_of_le_of_ne hh.1 hh.2)
    have helem : ∀ d ∈ sortNat (finalDigests ss), ∃ i : Nat, i < ss.length ∧
        (finalDigests ss)[i]? = some d ∧ (mLookup mF d).getD 0 = Int.ofNat i := by
      intro d hd
      have hdm : d ∈ finalDigests ss := hperm.mem_iff.mp hd
      obtain ⟨i, hi⟩ := List.getElem?_of_mem hdm
      refine ⟨i, ?_, hi, ?_⟩
      · have := getElem?_lt_length _ _ _ hi
        rwa [finalDigests_length] at this
      · rw [hlk i d hi]
        rfl
    refine ⟨?_, ?_, ?_⟩
    · intro e he
      rw [hidxs] at he
      obtain ⟨d, hd, hde⟩ := List.mem_map.mp he
      obtain ⟨i, hi1, _, hi3⟩ := helem d hd
      exact ⟨i, by rw [← hde, hi3], hi1⟩
    · rw [hidxs, List.map_map]
      have hnodup : ((sortNat (finalDigests ss)).map
          (Int.toNat ∘ fun d => (mLookup mF d).getD 0)).Nodup := by
        refine List.Nodup.map_on ?_ hsnd
        intro x hx y hy hxy
        obtain ⟨ix, _, hgx, hlx⟩ := helem x hx
        obtain ⟨iy, _, hgy, hly⟩ := helem y hy
        simp only [Function.comp] at hxy
        rw [hlx, hly] at hxy
        have hxy' : ix = iy := hxy
        subst hxy'
        rw [hgx] at hgy
        exact Option.some.inj hgy
      have hsub : ((sortNat (finalDigests ss)).map
          (Int.toNat ∘ fun d => (mLookup mF d).getD 0)) ⊆ List.range ss.length := by
        intro x hx
        obtain ⟨d, hd, hdx⟩ := List.mem_map.mp hx
        obtain ⟨i, hi1, _, hi3⟩ := helem d hd
        rw [List.mem_range, ← hdx]
        simp only [Function.comp]
        rw [hi3]
        exact hi1
      have hlen : (List.range ss.length).length ≤
          ((sortNat (finalDigests ss)).map
            (Int.toNat ∘ fun d => (mLookup mF d).getD 0)).length := by
        rw [List.length_map, List.length_range, hperm.length_eq, finalDigests_length]
      exact (hnodup.subperm hsub).perm_of_length_le hlen
    · rw [hidxs, List.map_map]
      have hmapeq : ((sortNat (finalDigests ss)).map
          ((fun e => (finalDigests ss).getD e.toNat 0) ∘
            fun d => (mLookup mF d).getD 0)) = sortNat (finalDigests ss) := by
        have := List.map_congr_left (l := sortNat (finalDigests ss))
          (f := (fun e => (finalDigests ss).getD e.toNat 0) ∘
            fun d => (mLookup mF d).getD 0) (g := id) ?_
        · rw [this, List.map_id]
        · intro d hd
          obtain ⟨i, _, hg, hl⟩ := helem d hd
          simp only [Function.comp, id]
          rw [hl]
          have h5 : (finalDigests ss).getD (Int.ofNat i).toNat 0 =
              (finalDigests ss).getD i 0 := rfl
          rw [h5, List.getD_eq_getElem?_getD, hg]
          rfl
      rw [hmapeq]
      exact hslt

theorem perm_pairwise_lt_eq {α : Type} (f : α → Nat) :
    ∀ (l₁ l₂ : List α), l₁.Perm l₂ →
      List.Pairwise (fun a b => f a < f b) l₁ →
      List.Pairwise (fun a b => f a < f b) l₂ → l₁ = l₂ := by
  intro l₁
  induction l₁ with
  | nil =>
    intro l₂ hp _ _
    exact List.Perm.nil_eq hp
  | cons a t₁ ih =>
    intro l₂ hp h₁ h₂
    cases l₂ with
    | nil => exact absurd hp.symm (by simp [List.Perm.nil_eq, List.cons_ne_nil])
    | cons b t₂ =>
      by_cases hab : a = b
      · subst hab
        rw [ih t₂ hp.cons_inv (List.pairwise_cons.mp h₁).2 (List.pairwise_cons.mp h₂).2]
      · have ha2 : a ∈ b :: t₂ := hp.subset (List.mem_cons_self a t₁)
        have hb1 : b ∈ a :: t₁ := hp.symm.subset (List.mem_cons_self b t₂)
        have ha2' : a ∈ t₂ := by
          rcases List.mem_cons.mp ha2 with h | h
          · exact absurd h hab
          · exact h
        have hb1' : b ∈ t₁ := by
          rcases List.mem_cons.mp hb1 with h | h
          · exact absurd h.symm hab
          · exact h
        have h3 : f a < f b := (List.pairwise_cons.mp h₁).1 b hb1'
        have h4 : f b < f a := (List.pairwise_cons.mp h₂).1 a ha2'
        omega

theorem assembleMap_ok_spec (ps : List (Except GoErr Bytes × Except GoErr Bytes)) :
    ∀ idxs b, assembleMap ps idxs = .ok b →
      b = (idxs.map (fun e => okBytes (ps.getD e.toNat (.ok [], .ok [])).1 ++
        okBytes (ps.getD e.toNat (.ok [], .ok [])).2)).flatten ∧
      ∀ e ∈ idxs, (∃ kb, (ps.getD e.toNat (.ok [], .ok [])).1 = .ok kb) ∧
        ∃ vb, (ps.getD e.toNat (.ok [], .ok [])).2 = .ok vb := by
  intro idxs
  induction idxs with
  | nil =>
    intro b h
    rw [assembleMap] at h
    have := Except.ok.inj h
    exact ⟨this.symm, by simp⟩
  | cons e rest ih =>
    intro b h
    rw [assembleMap] at h
    cases hk : (ps.getD e.toNat (.ok [], .ok [])).1 with
    | error er =>
      rw [hk] at h
      simp only at h
      exact absurd h (by simp)
    | ok kb =>
      rw [hk] at h
      cases hv : (ps.getD e.toNat (.ok [], .ok [])).2 with
      | error er =>
        rw [hv] at h
        simp only at h
        exact absurd h (by simp)
      | ok vb =>
        rw [hv] at h
        cases ha : assembleMap ps rest with
        | error er =>
          rw [ha] at h
          simp only at h
          exact absurd h (by simp)
        | ok tail =>
          rw [ha] at h
          simp only at h
          have hb := Except.ok.inj h
          obtain ⟨h1, h2⟩ := ih tail ha
          constructor
          · rw [← hb, List.map_cons, List.flatten_cons, ← h1, hk, hv]
            simp [okBytes]
          · intro e' he'
            rcases List.mem_cons.mp he' with he' | he'
            · subst he'
              exact ⟨⟨kb, hk⟩, ⟨vb, hv⟩⟩
            · exact h2 e' he'

theorem sortValues_ok_collect (streams : List (Except GoErr Bytes)) (idxs : List Int)
    (h : sortValues streams = .ok idxs) : ∃ ss, collectOk streams = .ok ss := by
  rw [sortValues] at h
  cases hc : collectOk streams with
  | error e =>
    rw [hc] at h
    simp at h
  | ok ss => exact ⟨ss, rfl⟩

theorem range_map_getD {α : Type} (l : List α) (junk : α) :
    (List.range l.length).map (fun i => l.getD i junk) = l := by
  induction l with
  | nil => rfl
  | cons x rest ih =>
    rw [List.length_cons, List.range_succ_eq_map, List.map_cons, List.map_map]
    have h1 : ((fun i => (x :: rest).getD i junk) ∘ Nat.succ) =
        fun i => rest.getD i junk := by
      funext i
      rfl
    rw [h1, ih]
    rfl

theorem perm_map_ok_cancel (ss₁ ss₂ : List Bytes)
    (h : (ss₁.map (Except.ok : Bytes → Except GoErr Bytes)).Perm
      (ss₂.map Except.ok)) : ss₁.Perm ss₂ := by
  rw [List.perm_iff_count]
  intro s
  have hinj : Function.Injective (Except.ok : Bytes → Except GoErr Bytes) :=
    fun x y hxy => Except.ok.inj hxy
  have h1 := List.count_map_of_injective ss₁ _ hinj s
  have h2 := List.count_map_of_injective ss₂ _ hinj s
  rw [← h1, ← h2]
  exact h.count_eq _

theorem entryStreams_eq_map (entries : List (GoValue × GoValue)) :
    entryStreams entries = entries.map (fun p => (visit p.1, visit p.2)) := by
  induction entries with
  | nil => rfl
  | cons p rest ih =>
    obtain ⟨k, v⟩ := p
    rw [entryStreams, ih]
    rfl

theorem keyRank_perm (ss₁ ss₂ : List Bytes) (h : ss₁.Perm ss₂)
    (p : Except GoErr Bytes × Except GoErr Bytes) : keyRank ss₁ p = keyRank ss₂ p := by
  cases hp : p.1 with
  | error e => simp [keyRank, hp]
  | ok s =>
    simp only [keyRank, hp]
    rw [(h.map crc64).count_eq]

theorem mapStep_side (ps : List (Except GoErr Bytes × Except GoErr Bytes))
    (ss : List Bytes) (idxs : List Int) (b : Bytes)
    (hmap : ps.map Prod.fst = ss.map Except.ok)
    (hs : sortValues (ss.map Except.ok) = .ok idxs)
    (ha : assembleMap ps idxs = .ok b) :
    (idxs.map (fun e => ps.getD e.toNat (.ok [], .ok []))).Perm ps ∧
    List.Pairwise (fun p q => keyRank ss p < keyRank ss q)
      (idxs.map (fun e => ps.getD e.toNat (.ok [], .ok []))) ∧
    b = ((idxs.map (fun e => ps.getD e.toNat (.ok [], .ok []))).map
      (fun p => okBytes p.1 ++ okBytes p.2)).flatten := by
  obtain ⟨hels, hpermIdx, hpair⟩ := sortValues_core_ok ss idxs hs
  have hlen : ps.length = ss.length := by
    have := congrArg List.length hmap
    simpa using this
  have helem : ∀ e ∈ idxs,
      keyRank ss (ps.getD e.toNat (.ok [], .ok [])) =
        (finalDigests ss).getD e.toNat 0 := by
    intro e he
    obtain ⟨i, hei, hilt⟩ := hels e he
    subst hei
    have hti : (Int.ofNat i).toNat = i := rfl
    rw [hti]
    obtain ⟨s, hsi⟩ : ∃ s, ss[i]? = some s :=
      ⟨ss[i], List.getElem?_eq_some_iff.mpr ⟨hilt, rfl⟩⟩
    obtain ⟨p, hpi⟩ : ∃ p, ps[i]? = some p :=
      ⟨ps[i], List.getElem?_eq_some_iff.mpr ⟨by omega, rfl⟩⟩
    have hfst : p.1 = .ok s := by
      have h1 : (ps.map Prod.fst)[i]? = some p.1 := by
        rw [List.getElem?_map, hpi]
        rfl
      have h2 : (ss.map (Except.ok : Bytes → Except GoErr Bytes))[i]? =
          some (Except.ok s) := by
        rw [List.getElem?_map, hsi]
        rfl
      rw [hmap, h2] at h1
      exact (Option.some.inj h1).symm
    have hgd : ps.getD i (.ok [], .ok []) = p := by
      rw [List.getD_eq_getElem?_getD, hpi]
      rfl
    rw [hgd, List.getD_eq_getElem?_getD, finalDigests_getElem ss i s hsi]
    simp only [keyRank, hfst]
    rfl
  refine ⟨?_, ?_, ?_⟩
  · have hcomp : idxs.map (fun e => ps.getD e.toNat (.ok [], .ok [])) =
        (idxs.map Int.toNat).map (fun i => ps.getD i (.ok [], .ok [])) := by
      rw [List.map_map]
      rfl
    rw [hcomp]
    have h1 := hpermIdx.map (fun i => ps.getD i (.ok [], .ok []))
    have h2 : (List.range ss.length).map (fun i => ps.getD i (.ok [], .ok [])) = ps := by
      rw [← hlen]
      exact range_map_getD ps (.ok [], .ok [])
    rw [h2] at h1
    exact h1
  · rw [List.pairwise_map]
    rw [List.pairwise_map] at hpair
    exact hpair.imp_of_mem (fun ha hb hr => by
      rw [helem _ ha, helem _ hb]
      exact hr)
  · obtain ⟨hb, _⟩ := assembleMap_ok_spec ps idxs b ha
    rw [hb, List.map_map]
    rfl

theorem mapStep_perm (ps qs : List (Except GoErr Bytes × Except GoErr Bytes))
    (hperm : ps.Perm qs) (b₁ b₂ : Bytes)
    (h₁ : mapStep ps = .ok b₁) (h₂ : mapStep qs = .ok b₂) : b₁ = b₂ := by
  rw [mapStep] at h₁ h₂
  cases hs₁ : sortValues (ps.map Prod.fst) with
  | error e =>
    rw [hs₁] at h₁
    simp at h₁
  | ok idxs₁ =>
    rw [hs₁] at h₁
    cases hs₂ : sortValues (qs.map Prod.fst) with
    | error e =>
      rw [hs₂] at h₂
      simp at h₂
    | ok idxs₂ =>
      rw [hs₂] at h₂
      simp only at h₁ h₂
      obtain ⟨ss₁, hc₁⟩ := sortValues_ok_collect _ _ hs₁
      obtain ⟨ss₂, hc₂⟩ := sortValues_ok_collect _ _ hs₂
      have hmap₁ := (collectOk_ok_iff _ _).mp hc₁
      have hmap₂ := (collectOk_ok_iff _ _).mp hc₂
      rw [hmap₁] at hs₁
      rw [hmap₂] at hs₂
      obtain ⟨hp₁, hw₁, hb₁⟩ := mapStep_side ps ss₁ idxs₁ b₁ hmap₁ hs₁ h₁
      obtain ⟨hp₂, hw₂, hb₂⟩ := mapStep_side qs ss₂ idxs₂ b₂ hmap₂ hs₂ h₂
      have hss : ss₁.Perm ss₂ := by
        apply perm_map_ok_cancel
        rw [← hmap₁, ← hmap₂]
        exact hperm.map Prod.fst
      have hw₂' : List.Pairwise (fun p q => keyRank ss₁ p < keyRank ss₁ q)
          (idxs₂.map (fun e => qs.getD e.toNat (.ok [], .ok []))) := by
        refine hw₂.imp ?_
        intro a b hr
        rw [keyRank_perm ss₁ ss₂ hss a, keyRank_perm ss₁ ss₂ hss b]
        exact hr
      have hrperm : (idxs₁.map (fun e => ps.getD e.toNat (.ok [], .ok []))).Perm
          (idxs₂.map (fun e => qs.getD e.toNat (.ok [], .ok []))) :=
        (hp₁.trans hperm).trans hp₂.symm
      have heq := perm_pairwise_lt_eq (keyRank ss₁) _ _ hrperm hw₁ hw₂'
      rw [hb₁, hb₂, heq]

/-- Claim C1: the result of Hash on a map is independent of the order in
which the runtime enumerates the entries: for two enumerations of the same
key-value pairs that both hash successfully, the walker writes the same
byte stream, so Hash returns the same 64-bit code under the same options. -/
theorem hash_map_enumeration_order_invariant (e₁ e₂ : List (GoValue × GoValue))
    (hperm : e₁.Perm e₂) (h₁ : isOkB (visit (.VMap e₁)) = true)
    (h₂ : isOkB (visit (.VMap e₂)) = true) (opts : Option (Bytes → Nat)) :
    Hash (.VMap e₁) opts = Hash (.VMap e₂) opts := by
  cases hv1 : visit (.VMap e₁) with
  | error er =>
    rw [hv1] at h₁
    simp [isOkB] at h₁
  | ok b₁ =>
    cases hv2 : visit (.VMap e₂) with
    | error er =>
      rw [hv2] at h₂
      simp [isOkB] at h₂
    | ok b₂ =>
      have hm1 : mapStep (entryStreams e₁) = .ok b₁ := hv1
      have hm2 : mapStep (entryStreams e₂) = .ok b₂ := hv2
      have hpe : (entryStreams e₁).Perm (entryStreams e₂) := by
        rw [entryStreams_eq_map, entryStreams_eq_map]
        exact hperm.map _
      have hb := mapStep_perm _ _ hpe b₁ b₂ hm1 hm2
      rw [Hash, Hash, hv1, hv2, hb]

/-- Claim C1 witness: the two-entry map holding a to 1 and b to 2 hashes to
the same default-option value under both enumeration orders. -/
theorem hash_map_enumeration_order_invariant_witness :
    ([(GoValue.VString [97], GoValue.VUint8 1), (.VString [98], .VUint8 2)] :
      List (GoValue × GoValue)).Perm
        [(.VString [98], .VUint8 2), (.VString [97], .VUint8 1)] ∧
    isOkB (visit (.VMap [(.VString [97], .VUint8 1), (.VString [98], .VUint8 2)])) = true ∧
    isOkB (visit (.VMap [(.VString [98], .VUint8 2), (.VString [97], .VUint8 1)])) = true ∧
    Hash (.VMap [(.VString [97], .VUint8 1), (.VString [98], .VUint8 2)]) none =
      Hash (.VMap [(.VString [98], .VUint8 2), (.VString [97], .VUint8 1)]) none := by
  refine ⟨List.Perm.swap _ _ _, rfl, rfl, ?_⟩
  exact hash_map_enumeration_order_invariant
    [(.VString [97], .VUint8 1), (.VString [98], .VUint8 2)]
    [(.VString [98], .VUint8 2), (.VString [97], .VUint8 1)]
    (List.Perm.swap _ _ _) rfl rfl none

/-- Claim C10: the tentative digests that order a map's keys come from
recursive Hash calls with default options, crc64 with the fnv64 fallback
chosen locally inside sortValues, never from the Hasher the caller passed;
consequently the canonical entry order idxs chosen for a given map and the
byte stream assembled from it are the same whatever Hasher the caller
supplies, which only digests that stream at the end. -/
theorem hash_ordering_independent_of_hasher (entries : List (GoValue × GoValue))
    (idxs : List Int) (h : sortValues (keyStreams entries) = .ok idxs)
    (d₁ d₂ : Bytes → Nat) :
    Hash (.VMap entries) (some d₁) = (assembleMap (entryStreams entries) idxs).map d₁ ∧
    Hash (.VMap entries) (some d₂) = (assembleMap (entryStreams entries) idxs).map d₂ ∧
    Hash (.VMap entries) none = (assembleMap (entryStreams entries) idxs).map crc64 := by
  have hv : visit (.VMap entries) = assembleMap (entryStreams entries) idxs := by
    have h0 : visit (.VMap entries) = mapStep (entryStreams entries) := rfl
    rw [h0, mapStep]
    rw [show (entryStreams entries).map Prod.fst = keyStreams entries from rfl, h]
  exact ⟨by rw [Hash, hv]; rfl, by rw [Hash, hv]; rfl, by rw [Hash, hv]; rfl⟩

/-- Claim C10 witness: for the map holding a to 1 and b to 2 the canonical
order is the identity, and two different caller Hashers, fnv64 and a
constant function, both consume the stream assembled from that same order. -/
theorem hash_ordering_independent_of_hasher_witness :
    sortValues (keyStreams [(GoValue.VString [97], GoValue.VUint8 1),
      (.VString [98], .VUint8 2)]) = .ok [0, 1] ∧
    (Hash (.VMap [(.VString [97], .VUint8 1), (.VString [98], .VUint8 2)]) (some fnv64) =
      (assembleMap (entryStreams [(.VString [97], .VUint8 1),
        (.VString [98], .VUint8 2)]) [0, 1]).map fnv64 ∧
     Hash (.VMap [(.VString [97], .VUint8 1), (.VString [98], .VUint8 2)])
        (some (fun _ => 7)) =
      (assembleMap (entryStreams [(.VString [97], .VUint8 1),
        (.VString [98], .VUint8 2)]) [0, 1]).map (fun _ => 7) ∧
     Hash (.VMap [(.VString [97], .VUint8 1), (.VString [98], .VUint8 2)]) none =
      (assembleMap (entryStreams [(.VString [97], .VUint8 1),
        (.VString [98], .VUint8 2)]) [0, 1]).map crc64) := by
  refine ⟨rfl, ?_⟩
  exact hash_ordering_independent_of_hasher
    [(.VString [97], .VUint8 1), (.VString [98], .VUint8 2)] [0, 1] rfl fnv64 (fun _ => 7)

theorem mLookup_mapf_mem (g : Nat → Nat) (cs : List Nat) (t : Nat) (v : Int)
    (h : mLookup (cs.map (fun c => (g c, Int.ofNat c))) t = some v) :
    ∃ c ∈ cs, g c = t := by
  induction cs with
  | nil => simp [mLookup] at h
  | cons c rest ih =>
    rw [List.map_cons, mLookup] at h
    by_cases hg : g c = t
    · exact ⟨c, List.mem_cons_self .., hg⟩
    · rw [if_neg hg] at h
      obtain ⟨c', hc', hgc'⟩ := ih h
      exact ⟨c', List.mem_cons.mpr (Or.inr hc'), hgc'⟩

theorem colliding_mem_facts (ss : List Bytes) (m : List (Nat × Int)) (coll : List Nat)
    (hinv : P1Inv (ss.map crc64) m coll) (c : Nat) (hc : c ∈ coll) :
    c < ss.length ∧ 2 ≤ (ss.map crc64).count (crc64 (ss.getD c [])) := by
  obtain ⟨_, _, _, I3⟩ := hinv
  obtain ⟨d, hget, hcnt⟩ := (I3 c).mp hc
  have hlt : c < ss.length := by
    have := getElem?_lt_length _ _ _ hget
    rwa [List.length_map] at this
  obtain ⟨s, hs⟩ : ∃ s, ss[c]? = some s :=
    ⟨ss[c], List.getElem?_eq_some_iff.mpr ⟨hlt, rfl⟩⟩
  have hmc : (ss.map crc64)[c]? = some (crc64 s) := map_crc_getElem ss c s hs
  rw [hmc] at hget
  cases Option.some.inj hget
  rw [getD_of_getElem? ss c s hs]
  exact ⟨hlt, hcnt⟩

/-- Claim C4: when the key streams of a map all hash successfully but the
fallback pass still finds the FNV-1 digest of a colliding key already taken,
Hash on the map fails with the unresolvable-collision error naming that key;
the named key is indeed one whose tentative crc64 digest is shared by at
least two keys, and the collision persists after the single fallback pass:
its FNV-1 digest equals the crc64 digest of some key or the FNV-1 digest of
another colliding key. No third algorithm exists to retry with. -/
theorem map_collision_fallback_error_spec (entries : List (GoValue × GoValue))
    (ss : List Bytes) (c : Nat)
    (hss : collectOk (keyStreams entries) = .ok ss)
    (h : sortValues (keyStreams entries) = .error (.unresolvableCollision c)) :
    Hash (.VMap entries) none = .error (.unresolvableCollision c) ∧
    c < ss.length ∧
    2 ≤ (ss.map crc64).count (crc64 (ss.getD c [])) ∧
    (fnv64 (ss.getD c []) ∈ ss.map crc64 ∨
      ∃ c', c' ≠ c ∧ c' < ss.length ∧
        2 ≤ (ss.map crc64).count (crc64 (ss.getD c' [])) ∧
        fnv64 (ss.getD c []) = fnv64 (ss.getD c' [])) := by
  have hHash : Hash (.VMap entries) none = .error (.unresolvableCollision c) := by
    have h0 : visit (.VMap entries) = mapStep (entryStreams entries) := rfl
    rw [Hash, h0, mapStep,
      show (entryStreams entries).map Prod.fst = keyStreams entries from rfl, h]
    rfl
  rw [sortValues, hss] at h
  simp only at h
  rcases hp : pass1 ss [] [] [] with ⟨ks, m, coll⟩
  rw [hp] at h
  simp only at h
  have hps := pass1_spec ss [] [] [] P1Inv_nil
  rw [hp] at hps
  simp only [List.nil_append] at hps
  obtain ⟨hks, hinv⟩ := hps
  subst hks
  cases hf : fallback ss coll (ss.map crc64) m with
  | ok r =>
    rw [hf] at h
    simp only at h
    exact absurd h (by simp)
  | error e =>
    rw [hf] at h
    have he := Except.error.inj h
    subst he
    obtain ⟨cs₁, c₀, cs₂, hsp, he, hlkSome⟩ := fallback_error_spec ss coll _ _ _ hf
    have hc0 : c₀ = c := by
      have := GoErr.unresolvableCollision.inj he
      omega
    subst hc0
    have hcmem : c₀ ∈ coll := by
      rw [hsp]
      simp
    obtain ⟨hclt, hccnt⟩ := colliding_mem_facts ss m coll hinv c₀ hcmem
    refine ⟨hHash, hclt, hccnt, ?_⟩
    obtain ⟨I1, I2, I3nd, I3⟩ := hinv
    cases hATot : mLookup (m ++ cs₁.map
        (fun c' => (fnv64 (ss.getD c' []), Int.ofNat c'))) (fnv64 (ss.getD c₀ [])) with
    | none =>
      rw [hATot] at hlkSome
      simp at hlkSome
    | some v =>
      cases hA : mLookup m (fnv64 (ss.getD c₀ [])) with
      | some w =>
        left
        by_contra hnm
        exact absurd hA (by rw [(I1 _).mpr hnm]; simp)
      | none =>
        right
        rw [mLookup_append_none _ _ _ hA] at hATot
        obtain ⟨c', hc'mem, hc'eq⟩ := mLookup_mapf_mem _ cs₁ _ v hATot
        have hc'coll : c' ∈ coll := by
          rw [hsp, List.mem_append]
          exact Or.inl hc'mem
        obtain ⟨hlt', hcnt'⟩ := colliding_mem_facts ss m coll ⟨I1, I2, I3nd, I3⟩ c' hc'coll
        have hne : c' ≠ c₀ := by
          intro heq
          subst heq
          rw [hsp, List.nodup_append] at I3nd
          exact I3nd.2.2 hc'mem (List.mem_cons_self ..)
        exact ⟨c', hne, hlt', hcnt', hc'eq.symm⟩

/-- Claim C4 witness: a three-key map whose first two keys share their crc64
digest and whose third key's crc64 digest equals the FNV-1 fallback digest
of the first key makes Hash fail with the unresolvable-collision error
naming the first key. -/
theorem map_collision_fallback_error_spec_witness :
    collectOk (keyStreams [(GoValue.VString [99, 111, 108, 108, 105, 100, 101, 33, 33],
        GoValue.VBool true),
      (.VString [230, 113, 98, 195, 66, 203, 189, 179, 32], .VBool true),
      (.VString [149, 217, 117, 86, 241, 253, 142, 224], .VBool true)]) =
      .ok [[99, 111, 108, 108, 105, 100, 101, 33, 33],
        [230, 113, 98, 195, 66, 203, 189, 179, 32],
        [149, 217, 117, 86, 241, 253, 142, 224]] ∧
    sortValues (keyStreams [(GoValue.VString [99, 111, 108, 108, 105, 100, 101, 33, 33],
        GoValue.VBool true),
      (.VString [230, 113, 98, 195, 66, 203, 189, 179, 32], .VBool true),
      (.VString [149, 217, 117, 86, 241, 253, 142, 224], .VBool true)]) =
      .error (.unresolvableCollision 0) ∧
    (Hash (.VMap [(.VString [99, 111, 108, 108, 105, 100, 101, 33, 33], .VBool true),
        (.VString [230, 113, 98, 195, 66, 203, 189, 179, 32], .VBool true),
        (.VString [149, 217, 117, 86, 241, 253, 142, 224], .VBool true)]) none =
        .error (.unresolvableCollision 0) ∧
      0 < ([[99, 111, 108, 108, 105, 100, 101, 33, 33],
        [230, 113, 98, 195, 66, 203, 189, 179, 32],
        [149, 217, 117, 86, 241, 253, 142, 224]] : List Bytes).length ∧
      2 ≤ (([[99, 111, 108, 108, 105, 100, 101, 33, 33],
        [230, 113, 98, 195, 66, 203, 189, 179, 32],
        [149, 217, 117, 86, 241, 253, 142, 224]] : List Bytes).map crc64).count
          (crc64 (([[99, 111, 108, 108, 105, 100, 101, 33, 33],
            [230, 113, 98, 195, 66, 203, 189, 179, 32],
            [149, 217, 117, 86, 241, 253, 142, 224]] : List Bytes).getD 0 [])) ∧
      (fnv64 (([[99, 111, 108, 108, 105, 100, 101, 33, 33],
          [230, 113, 98, 195, 66, 203, 189, 179, 32],
          [149, 217, 117, 86, 241, 253, 142, 224]] : List Bytes).getD 0 []) ∈
            ([[99, 111, 108, 108, 105, 100, 101, 33, 33],
              [230, 113, 98, 195, 66, 203, 189, 179, 32],
              [149, 217, 117, 86, 241, 253, 142, 224]] : List Bytes).map crc64 ∨
        ∃ c', c' ≠ 0 ∧ c' < ([[99, 111, 108, 108, 105, 100, 101, 33, 33],
            [230, 113, 98, 195, 66, 203, 189, 179, 32],
            [149, 217, 117, 86, 241, 253, 142, 224]] : List Bytes).length ∧
          2 ≤ (([[99, 111, 108, 108, 105, 100, 101, 33, 33],
            [230, 113, 98, 195, 66, 203, 189, 179, 32],
            [149, 217, 117, 86, 241, 253, 142, 224]] : List Bytes).map crc64).count
              (crc64 (([[99, 111, 108, 108, 105, 100, 101, 33, 33],
                [230, 113, 98, 195, 66, 203, 189, 179, 32],
                [149, 217, 117, 86, 241, 253, 142, 224]] : List Bytes).getD c' [])) ∧
          fnv64 (([[99, 111, 108, 108, 105, 100, 101, 33, 33],
            [230, 113, 98, 195, 66, 203, 189, 179, 32],
            [149, 217, 117, 86, 241, 253, 142, 224]] : List Bytes).getD 0 []) =
            fnv64 (([[99, 111, 108, 108, 105, 100, 101, 33, 33],
              [230, 113, 98, 195, 66, 203, 189, 179, 32],
              [149, 217, 117, 86, 241, 253, 142, 224]] : List Bytes).getD c' []))) := by
  refine ⟨rfl, rfl, ?_⟩
  exact map_collision_fallback_error_spec
    [(.VString [99, 111, 108, 108, 105, 100, 101, 33, 33], .VBool true),
      (.VString [230, 113, 98, 195, 66, 203, 189, 179, 32], .VBool true),
      (.VString [149, 217, 117, 86, 241, 253, 142, 224], .VBool true)]
    [[99, 111, 108, 108, 105, 100, 101, 33, 33],
      [230, 113, 98, 195, 66, 203, 189, 179, 32],
      [149, 217, 117, 86, 241, 253, 142, 224]] 0 rfl rfl

theorem visitList_cons_ok (x : GoValue) (rest : List GoValue) (b : Bytes)
    (h : visitList (x :: rest) = .ok b) :
    ∃ bx brest, visit x = .ok bx ∧ visitList rest = .ok brest ∧ b = bx ++ brest := by
  rw [visitList] at h
  cases hx : visit x with
  | error e =>
    rw [hx] at h
    simp only at h
    exact absurd h (by simp)
  | ok bx =>
    rw [hx] at h
    cases hr : visitList rest with
    | error e =>
      rw [hr] at h
      simp only at h
      exact absurd h (by simp)
    | ok brest =>
      rw [hr] at h
      simp only at h
      exact ⟨bx, brest, rfl, rfl, (Except.ok.inj h).symm⟩

theorem mapStep_ok_all (ps : List (Except GoErr Bytes × Except GoErr Bytes)) (b : Bytes)
    (h : mapStep ps = .ok b) :
    ∀ p ∈ ps, (∃ kb, p.1 = .ok kb) ∧ ∃ vb, p.2 = .ok vb := by
  rw [mapStep] at h
  cases hs : sortValues (ps.map Prod.fst) with
  | error e =>
    rw [hs] at h
    simp at h
  | ok idxs =>
    rw [hs] at h
    simp only at h
    obtain ⟨ss, hc⟩ := sortValues_ok_collect _ _ hs
    have hmap := (collectOk_ok_iff _ _).mp hc
    rw [hmap] at hs
    obtain ⟨_, hpermIdx, _⟩ := sortValues_core_ok ss idxs hs
    obtain ⟨_, hall⟩ := assembleMap_ok_spec ps idxs b h
    intro p hp
    obtain ⟨i, hpi⟩ := List.getElem?_of_mem hp
    have hilt : i < ps.length := (List.getElem?_eq_some_iff.mp hpi).1
    have hlen : ps.length = ss.length := by
      have := congrArg List.length hmap
      simpa using this
    have hirange : i ∈ idxs.map Int.toNat := by
      rw [hpermIdx.mem_iff, List.mem_range]
      omega
    obtain ⟨e, he, hei⟩ := List.mem_map.mp hirange
    have hgd : ps.getD e.toNat (.ok [], .ok []) = p := by
      rw [List.getD_eq_getElem?_getD, hei, hpi]
      rfl
    obtain ⟨h1, h2⟩ := hall e he
    rw [hgd] at h1 h2
    exact ⟨h1, h2⟩

mutual

theorem enumEquiv_refl : ∀ v : GoValue, EnumEquiv v v
  | .VNilIface => by simp only [EnumEquiv]
  | .VBool b => by simp only [EnumEquiv]
  | .VInt n => by simp only [EnumEquiv]
  | .VInt8 n => by simp only [EnumEquiv]
  | .VInt16 n => by simp only [EnumEquiv]
  | .VInt32 n => by simp only [EnumEquiv]
  | .VInt64 n => by simp only [EnumEquiv]
  | .VUint n => by simp only [EnumEquiv]
  | .VUint8 n => by simp only [EnumEquiv]
  | .VUint16 n => by simp only [EnumEquiv]
  | .VUint32 n => by simp only [EnumEquiv]
  | .VUint64 n => by simp only [EnumEquiv]
  | .VString s => by simp only [EnumEquiv]
  | .VArray xs => by
    simp only [EnumEquiv]
    exact enumEquivList_refl xs
  | .VSlice xs => by
    simp only [EnumEquiv]
    exact enumEquivList_refl xs
  | .VMap es => by
    simp only [EnumEquiv]
    exact ⟨es, enumEquivPairs_refl es, List.Perm.refl es⟩
  | .VStruct n fs => by
    simp only [EnumEquiv]
    exact ⟨trivial, enumEquivFields_refl fs⟩
  | .VPtr p => by
    simp only [EnumEquiv]
    exact enumEquiv_refl p
  | .VFunc => by simp only [EnumEquiv]

theorem enumEquivList_refl : ∀ xs : List GoValue, EnumEquivList xs xs
  | [] => by simp only [EnumEquivList]
  | x :: rest => by
    simp only [EnumEquivList]
    exact ⟨enumEquiv_refl x, enumEquivList_refl rest⟩

theorem enumEquivPairs_refl : ∀ ps : List (GoValue × GoValue), EnumEquivPairs ps ps
  | [] => by simp only [EnumEquivPairs]
  | (k, v) :: rest => by
    simp only [EnumEquivPairs]
    exact ⟨enumEquiv_refl k, enumEquiv_refl v, enumEquivPairs_refl rest⟩

theorem enumEquivFields_refl : ∀ fs : List (FieldMeta × GoValue), EnumEquivFields fs fs
  | [] => by simp only [EnumEquivFields]
  | (m, v) :: rest => by
    simp only [EnumEquivFields]
    exact ⟨trivial, enumEquiv_refl v, enumEquivFields_refl rest⟩

end

theorem visitFields_cons_ok (m : FieldMeta) (v : GoValue)
    (rest : List (FieldMeta × GoValue)) (b : Bytes)
    (hcond : m.canSet = true ∨ m.name ≠ "_")
    (h : visitFields ((m, v) :: rest) = .ok b) :
    ∃ bv brest, visit v = .ok bv ∧ visitFields rest = .ok brest ∧ b = bv ++ brest := by
  rw [visitFields, if_pos hcond] at h
  cases hx : visit v with
  | error e =>
    rw [hx] at h
    simp only at h
    exact absurd h (by simp)
  | ok bv =>
    rw [hx] at h
    cases hr : visitFields rest with
    | error e =>
      rw [hr] at h
      simp only at h
      exact absurd h (by simp)
    | ok brest =>
      rw [hr] at h
      simp only at h
      exact ⟨bv, brest, rfl, rfl, (Except.ok.inj h).symm⟩

mutual

theorem visit_enumEquiv : ∀ (v₁ v₂ : GoValue), EnumEquiv v₁ v₂ →
    ∀ b₁ b₂, visit v₁ = .ok b₁ → visit v₂ = .ok b₂ → b₁ = b₂
  | .VNilIface, v₂, h, b₁, b₂, h₁, h₂ => by
    cases v₂ <;> simp only [EnumEquiv] at h
    exact Except.ok.inj (h₁.symm.trans h₂)
  | .VBool a, v₂, h, b₁, b₂, h₁, h₂ => by
    cases v₂ <;> simp only [EnumEquiv] at h
    subst h
    exact Except.ok.inj (h₁.symm.trans h₂)
  | .VInt a, v₂, h, b₁, b₂, h₁, h₂ => by
    cases v₂ <;> simp only [EnumEquiv] at h
    subst h
    exact Except.ok.inj (h₁.symm.trans h₂)
  | .VInt8 a, v₂, h, b₁, b₂, h₁, h₂ => by
    cases v₂ <;> simp only [EnumEquiv] at h
    subst h
    exact Except.ok.inj (h₁.symm.trans h₂)
  | .VInt16 a, v₂, h, b₁, b₂, h₁, h₂ => by
    cases v₂ <;> simp only [EnumEquiv] at h
    subst h
    exact Except.ok.inj (h₁.symm.trans h₂)
  | .VInt32 a, v₂, h, b₁, b₂, h₁, h₂ => by
    cases v₂ <;> simp only [EnumEquiv] at h
    subst h
    exact Except.ok.inj (h₁.symm.trans h₂)
  | .VInt64 a, v₂, h, b₁, b₂, h₁, h₂ => by
    cases v₂ <;> simp only [EnumEquiv] at h
    subst h
    exact Except.ok.inj (h₁.symm.trans h₂)
  | .VUint a, v₂, h, b₁, b₂, h₁, h₂ => by
    cases v₂ <;> simp only [EnumEquiv] at h
    subst h
    exact Except.ok.inj (h₁.symm.trans h₂)
  | .VUint8 a, v₂, h, b₁, b₂, h₁, h₂ => by
    cases v₂ <;> simp only [EnumEquiv] at h
    subst h
    exact Except.ok.inj (h₁.symm.trans h₂)
  | .VUint16 a, v₂, h, b₁, b₂, h₁, h₂ => by
    cases v₂ <;> simp only [EnumEquiv] at h
    subst h
    exact Except.ok.inj (h₁.symm.trans h₂)
  | .VUint32 a, v₂, h, b₁, b₂, h₁, h₂ => by
    cases v₂ <;> simp only [EnumEquiv] at h
    subst h
    exact Except.ok.inj (h₁.symm.trans h₂)
  | .VUint64 a, v₂, h, b₁, b₂, h₁, h₂ => by
    cases v₂ <;> simp only [EnumEquiv] at h
    subst h
    exact Except.ok.inj (h₁.symm.trans h₂)
  | .VString a, v₂, h, b₁, b₂, h₁, h₂ => by
    cases v₂ <;> simp only [EnumEquiv] at h
    subst h
    exact Except.ok.inj (h₁.symm.trans h₂)
  | .VFunc, v₂, h, b₁, b₂, h₁, h₂ => by
    cases v₂ <;> simp only [EnumEquiv] at h
    exact Except.ok.inj (h₁.symm.trans h₂)
  | .VPtr p, v₂, h, b₁, b₂, h₁, h₂ => by
    cases v₂ <;> simp only [EnumEquiv] at h
    case VPtr q => exact visit_enumEquiv p q h b₁ b₂ h₁ h₂
  | .VArray xs, v₂, h, b₁, b₂, h₁, h₂ => by
    cases v₂ <;> simp only [EnumEquiv] at h
    case VArray ys => exact visit_enumEquivList xs ys h b₁ b₂ h₁ h₂
  | .VSlice xs, v₂, h, b₁, b₂, h₁, h₂ => by
    cases v₂ <;> simp only [EnumEquiv] at h
    case VSlice ys => exact visit_enumEquivList xs ys h b₁ b₂ h₁ h₂
  | .VStruct n fs, v₂, h, b₁, b₂, h₁, h₂ => by
    cases v₂ <;> simp only [EnumEquiv] at h
    case VStruct n' gs => exact visit_enumEquivFields fs gs h.2 b₁ b₂ h₁ h₂
  | .VMap e₁, v₂, h, b₁, b₂, h₁, h₂ => by
    cases v₂ <;> simp only [EnumEquiv] at h
    case VMap e₂ =>
      obtain ⟨mid, hpairs, hperm⟩ := h
      have hm1 : mapStep (entryStreams e₁) = .ok b₁ := h₁
      have hm2 : mapStep (entryStreams e₂) = .ok b₂ := h₂
      have hall₁ := mapStep_ok_all _ _ hm1
      have hall₂ := mapStep_ok_all _ _ hm2
      have hallv₁ : ∀ p ∈ e₁, (∃ bk, visit p.1 = .ok bk) ∧ ∃ bv, visit p.2 = .ok bv := by
        intro p hp
        have hmem : (visit p.1, visit p.2) ∈ entryStreams e₁ := by
          rw [entryStreams_eq_map]
          exact List.mem_map.mpr ⟨p, hp, rfl⟩
        exact hall₁ _ hmem
      have hallv₂ : ∀ p ∈ e₂, (∃ bk, visit p.1 = .ok bk) ∧ ∃ bv, visit p.2 = .ok bv := by
        intro p hp
        have hmem : (visit p.1, visit p.2) ∈ entryStreams e₂ := by
          rw [entryStreams_eq_map]
          exact List.mem_map.mpr ⟨p, hp, rfl⟩
        exact hall₂ _ hmem
      have hallvMid : ∀ p ∈ mid, (∃ bk, visit p.1 = .ok bk) ∧ ∃ bv, visit p.2 = .ok bv :=
        fun p hp => hallv₂ p (hperm.subset hp)
      have hstreams : entryStreams e₁ = entryStreams mid :=
        visit_enumEquivPairs e₁ mid hpairs hallv₁ hallvMid
      have hpe : (entryStreams e₁).Perm (entryStreams e₂) := by
        rw [hstreams, entryStreams_eq_map, entryStreams_eq_map]
        exact hperm.map _
      exact mapStep_perm _ _ hpe b₁ b₂ hm1 hm2

theorem visit_enumEquivList : ∀ (xs ys : List GoValue), EnumEquivList xs ys →
    ∀ b₁ b₂, visitList xs = .ok b₁ → visitList ys = .ok b₂ → b₁ = b₂
  | [], [], _, b₁, b₂, h₁, h₂ => Except.ok.inj (h₁.symm.trans h₂)
  | [], y :: ys, h, _, _, _, _ => by simp only [EnumEquivList] at h
  | x :: xs, [], h, _, _, _, _ => by simp only [EnumEquivList] at h
  | x :: xs, y :: ys, h, b₁, b₂, h₁, h₂ => by
    simp only [EnumEquivList] at h
    obtain ⟨hx, hrest⟩ := h
    obtain ⟨bx, bxs, hbx, hbxs, hb1⟩ := visitList_cons_ok x xs b₁ h₁
    obtain ⟨bz, bys, hbz, hbys, hb2⟩ := visitList_cons_ok y ys b₂ h₂
    have h3 := visit_enumEquiv x y hx bx bz hbx hbz
    have h4 := visit_enumEquivList xs ys hrest bxs bys hbxs hbys
    rw [hb1, hb2, h3, h4]

theorem visit_enumEquivPairs : ∀ (ps qs : List (GoValue × GoValue)), EnumEquivPairs ps qs →
    (∀ p ∈ ps, (∃ bk, visit p.1 = .ok bk) ∧ ∃ bv, visit p.2 = .ok bv) →
    (∀ q ∈ qs, (∃ bk, visit q.1 = .ok bk) ∧ ∃ bv, visit q.2 = .ok bv) →
    entryStreams ps = entryStreams qs
  | [], [], _, _, _ => rfl
  | [], q :: qs, h, _, _ => by simp only [EnumEquivPairs] at h
  | p :: ps, [], h, _, _ => by simp only [EnumEquivPairs] at h
  | (k, v) :: ps, (k', v') :: qs, h, hall₁, hall₂ => by
    simp only [EnumEquivPairs] at h
    obtain ⟨hk, hv, hrest⟩ := h
    obtain ⟨⟨bk, hbk⟩, ⟨bv, hbv⟩⟩ := hall₁ (k, v) (List.mem_cons_self ..)
    obtain ⟨⟨bk', hbk'⟩, ⟨bv', hbv'⟩⟩ := hall₂ (k', v') (List.mem_cons_self ..)
    have hkeq := visit_enumEquiv k k' hk bk bk' hbk hbk'
    have hveq := visit_enumEquiv v v' hv bv bv' hbv hbv'
    have htail := visit_enumEquivPairs ps qs hrest
      (fun p hp => hall₁ p (List.mem_cons.mpr (Or.inr hp)))
      (fun q hq => hall₂ q (List.mem_cons.mpr (Or.inr hq)))
    rw [entryStreams, entryStreams, hbk, hbv, hbk', hbv', hkeq, hveq, htail]

theorem visit_enumEquivFields : ∀ (fs gs : List (FieldMeta × GoValue)),
    EnumEquivFields fs gs →
    ∀ b₁ b₂, visitFields fs = .ok b₁ → visitFields gs = .ok b₂ → b₁ = b₂
  | [], [], _, b₁, b₂, h₁, h₂ => Except.ok.inj (h₁.symm.trans h₂)
  | [], g :: gs, h, _, _, _, _ => by simp only [EnumEquivFields] at h
  | f :: fs, [], h, _, _, _, _ => by simp only [EnumEquivFields] at h
  | (m, v) :: fs, (m', v') :: gs, h, b₁, b₂, h₁, h₂ => by
    simp only [EnumEquivFields] at h
    obtain ⟨hm, hv, hrest⟩ := h
    subst hm
    by_cases hcond : m.canSet = true ∨ m.name ≠ "_"
    · obtain ⟨bv, brest, hbv, hbrest, hb1⟩ := visitFields_cons_ok m v fs b₁ hcond h₁
      obtain ⟨bv', brest', hbv', hbrest', hb2⟩ := visitFields_cons_ok m v' gs b₂ hcond h₂
      have h3 := visit_enumEquiv v v' hv bv bv' hbv hbv'
      have h4 := visit_enumEquivFields fs gs hrest brest brest' hbrest hbrest'
      rw [hb1, hb2, h3, h4]
    · rw [visitFields, if_neg hcond] at h₁ h₂
      exact visit_enumEquivFields fs gs hrest b₁ b₂ h₁ h₂

end

/-- Claim C2 (amended): for fixed options the stream the walker writes is a
pure function of the observed value, and even though the runtime may
enumerate any map, anywhere in the value, in a different order on every
call, two successful observations of one value related by EnumEquiv produce
the same stream, hence one identical 64-bit code; the outcome equality is
restricted to successful calls, because a failing call reports the
unresolvable-collision error naming a key that depends on the enumeration
order, as the counterexample shows. -/
theorem hash_deterministic_across_enumerations (v₁ v₂ : GoValue)
    (h : EnumEquiv v₁ v₂) (h₁ : isOkB (visit v₁) = true) (h₂ : isOkB (visit v₂) = true)
    (opts : Option (Bytes → Nat)) :
    Hash v₁ opts = Hash v₂ opts := by
  cases hv1 : visit v₁ with
  | error e =>
    rw [hv1] at h₁
    simp [isOkB] at h₁
  | ok b₁ =>
    cases hv2 : visit v₂ with
    | error e =>
      rw [hv2] at h₂
      simp [isOkB] at h₂
    | ok b₂ =>
      rw [Hash, Hash, hv1, hv2, visit_enumEquiv v₁ v₂ h b₁ b₂ hv1 hv2]

/-- Claim C2 witness: a record holding a two-entry map hashes to the same
default-option code in two calls that enumerate the map in opposite orders. -/
theorem hash_deterministic_across_enumerations_witness :
    EnumEquiv (.VStruct "S" [(⟨"M", "", false⟩,
        .VMap [(.VString [100], .VUint8 1), (.VString [101], .VUint8 2)])])
      (.VStruct "S" [(⟨"M", "", false⟩,
        .VMap [(.VString [101], .VUint8 2), (.VString [100], .VUint8 1)])]) ∧
    isOkB (visit (.VStruct "S" [(⟨"M", "", false⟩,
      .VMap [(.VString [100], .VUint8 1), (.VString [101], .VUint8 2)])])) = true ∧
    isOkB (visit (.VStruct "S" [(⟨"M", "", false⟩,
      .VMap [(.VString [101], .VUint8 2), (.VString [100], .VUint8 1)])])) = true ∧
    Hash (.VStruct "S" [(⟨"M", "", false⟩,
        .VMap [(.VString [100], .VUint8 1), (.VString [101], .VUint8 2)])]) none =
      Hash (.VStruct "S" [(⟨"M", "", false⟩,
        .VMap [(.VString [101], .VUint8 2), (.VString [100], .VUint8 1)])]) none := by
  have hmid : ∃ mid, EnumEquivPairs
      [(GoValue.VString [100], GoValue.VUint8 1), (.VString [101], .VUint8 2)] mid ∧
      mid.Perm [(GoValue.VString [101], GoValue.VUint8 2), (.VString [100], .VUint8 1)] :=
    ⟨[(.VString [100], .VUint8 1), (.VString [101], .VUint8 2)],
      enumEquivPairs_refl _, List.Perm.swap _ _ _⟩
  have he : EnumEquiv (.VStruct "S" [(⟨"M", "", false⟩,
      .VMap [(.VString [100], .VUint8 1), (.VString [101], .VUint8 2)])])
    (.VStruct "S" [(⟨"M", "", false⟩,
      .VMap [(.VString [101], .VUint8 2), (.VString [100], .VUint8 1)])]) := by
    simp only [EnumEquiv, EnumEquivFields]
    exact ⟨trivial, trivial, hmid, trivial⟩
  exact ⟨he, rfl, rfl,
    hash_deterministic_across_enumerations _ _ he rfl rfl none⟩

/-- Claim C2 counterexample: the claim extends outcome equality to failing
calls, but the unresolvable-collision error names a key chosen by the map
enumeration order. One logical four-key map, observed in two enumeration
orders (the second the reverse of the first, so EnumEquiv relates the two
observations), makes Hash under default options fail naming the key at
index 0, the string 99 111 108 108 105 100 101 33 33, in the first call
and the key at index 2, the distinct string 230 113 98 195 66 203 189 179
32, in the second call: the first two keys share their crc64 digest and
the FNV-1 fallback digest of each equals the crc64 digest of one of the
two remaining keys, so whichever colliding key the enumeration presents
first is the one the error reports. The two independent calls therefore do
not return the same result-and-error outcome. -/
theorem hash_error_outcome_enum_dependent :
    EnumEquiv
      (GoValue.VMap [(GoValue.VString [99, 111, 108, 108, 105, 100, 101, 33, 33],
          GoValue.VUint8 1),
        (.VString [230, 113, 98, 195, 66, 203, 189, 179, 32], .VUint8 2),
        (.VString [149, 217, 117, 86, 241, 253, 142, 224], .VUint8 3),
        (.VString [44, 17, 188, 248, 86, 12, 170, 142], .VUint8 4)])
      (GoValue.VMap [(GoValue.VString [44, 17, 188, 248, 86, 12, 170, 142],
          GoValue.VUint8 4),
        (.VString [149, 217, 117, 86, 241, 253, 142, 224], .VUint8 3),
        (.VString [230, 113, 98, 195, 66, 203, 189, 179, 32], .VUint8 2),
        (.VString [99, 111, 108, 108, 105, 100, 101, 33, 33], .VUint8 1)]) ∧
    Hash (GoValue.VMap [(GoValue.VString [99, 111, 108, 108, 105, 100, 101, 33, 33],
          GoValue.VUint8 1),
        (.VString [230, 113, 98, 195, 66, 203, 189, 179, 32], .VUint8 2),
        (.VString [149, 217, 117, 86, 241, 253, 142, 224], .VUint8 3),
        (.VString [44, 17, 188, 248, 86, 12, 170, 142], .VUint8 4)]) none =
      .error (.unresolvableCollision 0) ∧
    Hash (GoValue.VMap [(GoValue.VString [44, 17, 188, 248, 86, 12, 170, 142],
          GoValue.VUint8 4),
        (.VString [149, 217, 117, 86, 241, 253, 142, 224], .VUint8 3),
        (.VString [230, 113, 98, 195, 66, 203, 189, 179, 32], .VUint8 2),
        (.VString [99, 111, 108, 108, 105, 100, 101, 33, 33], .VUint8 1)]) none =
      .error (.unresolvableCollision 2) ∧
    Hash (GoValue.VMap [(GoValue.VString [99, 111, 108, 108, 105, 100, 101, 33, 33],
          GoValue.VUint8 1),
        (.VString [230, 113, 98, 195, 66, 203, 189, 179, 32], .VUint8 2),
        (.VString [149, 217, 117, 86, 241, 253, 142, 224], .VUint8 3),
        (.VString [44, 17, 188, 248, 86, 12, 170, 142], .VUint8 4)]) none ≠
      Hash (GoValue.VMap [(GoValue.VString [44, 17, 188, 248, 86, 12, 170, 142],
          GoValue.VUint8 4),
        (.VString [149, 217, 117, 86, 241, 253, 142, 224], .VUint8 3),
        (.VString [230, 113, 98, 195, 66, 203, 189, 179, 32], .VUint8 2),
        (.VString [99, 111, 108, 108, 105, 100, 101, 33, 33], .VUint8 1)]) none ∧
    (keyStreams [(GoValue.VString [99, 111, 108, 108, 105, 100, 101, 33, 33],
          GoValue.VUint8 1),
        (.VString [230, 113, 98, 195, 66, 203, 189, 179, 32], .VUint8 2),
        (.VString [149, 217, 117, 86, 241, 253, 142, 224], .VUint8 3),
        (.VString [44, 17, 188, 248, 86, 12, 170, 142], .VUint8 4)]).getD 0 (.ok []) ≠
      (keyStreams [(GoValue.VString [44, 17, 188, 248, 86, 12, 170, 142],
          GoValue.VUint8 4),
        (.VString [149, 217, 117, 86, 241, 253, 142, 224], .VUint8 3),
        (.VString [230, 113, 98, 195, 66, 203, 189, 179, 32], .VUint8 2),
        (.VString [99, 111, 108, 108, 105, 100, 101, 33, 33], .VUint8 1)]).getD 2
          (.ok []) := by
  have hperm : List.Perm
      [(GoValue.VString [99, 111, 108, 108, 105, 100, 101, 33, 33], GoValue.VUint8 1),
        (.VString [230, 113, 98, 195, 66, 203, 189, 179, 32], .VUint8 2),
        (.VString [149, 217, 117, 86, 241, 253, 142, 224], .VUint8 3),
        (.VString [44, 17, 188, 248, 86, 12, 170, 142], .VUint8 4)]
      [(GoValue.VString [44, 17, 188, 248, 86, 12, 170, 142], GoValue.VUint8 4),
        (.VString [149, 217, 117, 86, 241, 253, 142, 224], .VUint8 3),
        (.VString [230, 113, 98, 195, 66, 203, 189, 179, 32], .VUint8 2),
        (.VString [99, 111, 108, 108, 105, 100, 101, 33, 33], .VUint8 1)] :=
    (List.reverse_perm _).symm
  have he : EnumEquiv
      (GoValue.VMap [(GoValue.VString [99, 111, 108, 108, 105, 100, 101, 33, 33],
          GoValue.VUint8 1),
        (.VString [230, 113, 98, 195, 66, 203, 189, 179, 32], .VUint8 2),
        (.VString [149, 217, 117, 86, 241, 253, 142, 224], .VUint8 3),
        (.VString [44, 17, 188, 248, 86, 12, 170, 142], .VUint8 4)])
      (GoValue.VMap [(GoValue.VString [44, 17, 188, 248, 86, 12, 170, 142],
          GoValue.VUint8 4),
        (.VString [149, 217, 117, 86, 241, 253, 142, 224], .VUint8 3),
        (.VString [230, 113, 98, 195, 66, 203, 189, 179, 32], .VUint8 2),
        (.VString [99, 111, 108, 108, 105, 100, 101, 33, 33], .VUint8 1)]) := by
    simp only [EnumEquiv]
    exact ⟨_, enumEquivPairs_refl _, hperm⟩
  exact ⟨he, rfl, rfl, by decide, by decide⟩
